import Mathlib

/-!
Verification of the open-ear-trainer backend core against its specification.

The Python source is shallowly embedded in Lean:
* Python strings are `List Char` (`chars` converts a Lean literal).
* Python integers are `ℤ`, Python floats are modelled by exact rationals `ℚ`
  (the spec and claims describe the arithmetic over the reals).
* Code that can raise an exception is embedded as an `Option`-returning
  function; `none` models the exception escaping the modelled fragment.
* Python dicts (insertion ordered, unique keys) are association lists.

Each definition mirrors one function of the repository (module and function
named in its doc comment).
-/

/-- the characters of a string literal, the representation used for Python
strings throughout this development -/
def chars (s : String) : List Char := s.data

/-- base-10 digits of `n`, least significant first, with explicit fuel so
that the definition is structural (kernel-reducible); with fuel at least
`n` it agrees with `Nat.digits 10 n` -/
def natDigitsRev : ℕ → ℕ → List ℕ
  | 0, _ => []
  | fuel + 1, n => if n = 0 then [] else n % 10 :: natDigitsRev fuel (n / 10)

/-- decimal digit characters of a natural number, most significant first;
mirrors Python `str(n)` for `n ≥ 0` -/
def natToChars (n : ℕ) : List Char :=
  if n = 0 then ['0'] else (natDigitsRev n n).reverse.map Nat.digitChar

theorem natDigitsRev_eq (fuel n : ℕ) (h : n ≤ fuel) :
    natDigitsRev fuel n = Nat.digits 10 n := by
  induction fuel generalizing n with
  | zero =>
      have : n = 0 := Nat.le_zero.mp h
      subst this
      simp [natDigitsRev, Nat.digits_zero]
  | succ fuel ih =>
      by_cases hn : n = 0
      · subst hn
        simp [natDigitsRev, Nat.digits_zero]
      · have hdiv : n / 10 ≤ fuel := by
          have := Nat.div_lt_self (Nat.pos_of_ne_zero hn) (by norm_num : 1 < 10)
          omega
        simp only [natDigitsRev, if_neg hn, ih _ hdiv]
        rw [Nat.digits_def' (by norm_num : 1 < 10) (Nat.pos_of_ne_zero hn)]

theorem natToChars_eq_digits (n : ℕ) :
    natToChars n = if n = 0 then ['0'] else (Nat.digits 10 n).reverse.map Nat.digitChar := by
  unfold natToChars
  by_cases hn : n = 0
  · simp [hn]
  · rw [if_neg hn, if_neg hn, natDigitsRev_eq n n le_rfl]

/-- decimal rendering of an integer; mirrors Python `str(n)` -/
def intToChars (n : ℤ) : List Char :=
  if n < 0 then '-' :: natToChars (-n).toNat else natToChars n.toNat

/-- is `c` one of the ten decimal digit characters -/
def isDigitChar (c : Char) : Bool := 48 ≤ c.toNat && c.toNat ≤ 57

/-- parse a non-empty all-digit character list as a natural number; `none`
models Python `int()` raising `ValueError` -/
def parseNat (l : List Char) : Option ℕ :=
  if l ≠ [] ∧ l.all isDigitChar then
    some (l.foldl (fun a c => 10 * a + (c.toNat - 48)) 0)
  else none

/-- parse an optionally `-`-signed decimal character list as an integer;
models the fragment of Python `int(str)` exercised by the repository -/
def parseInt (l : List Char) : Option ℤ :=
  if l.head? = some '-' then (parseNat l.tail).map (fun m => -(m : ℤ))
  else (parseNat l).map (fun m => (m : ℤ))

/-- Python `s.split(sep)` for a one-character separator -/
def pySplit (sep : Char) : List Char → List (List Char)
  | [] => [[]]
  | c :: rest =>
      if c = sep then [] :: pySplit sep rest
      else
        match pySplit sep rest with
        | r :: rs => (c :: r) :: rs
        | [] => [[c]]

/-- Python `sep.join(parts)` for a one-character separator -/
def joinSep (sep : Char) : List (List Char) → List Char
  | [] => []
  | [x] => x
  | x :: xs => x ++ sep :: joinSep sep xs

section PrimitiveLemmas

theorem digitChar_toNat_sub (d : ℕ) (h : d < 10) :
    (Nat.digitChar d).toNat - 48 = d := by
  interval_cases d <;> rfl

theorem digitChar_isDigit (d : ℕ) (h : d < 10) :
    isDigitChar (Nat.digitChar d) = true := by
  interval_cases d <;> rfl

theorem digitChar_ne (d : ℕ) (h : d < 10) (c : Char)
    (hc : isDigitChar c = false) : Nat.digitChar d ≠ c := by
  intro he
  rw [← he, digitChar_isDigit d h] at hc
  cases hc

theorem foldl_digits (ds : List ℕ) (hd : ∀ d ∈ ds, d < 10) :
    ((ds.reverse.map Nat.digitChar).foldl (fun a c => 10 * a + (c.toNat - 48)) 0)
      = Nat.ofDigits 10 ds := by
  induction ds with
  | nil => rfl
  | cons d rest ih =>
      have hdd : d < 10 := hd d (List.mem_cons_self d rest)
      have hrest : ∀ x ∈ rest, x < 10 := fun x hx => hd x (List.mem_cons_of_mem d hx)
      simp only [List.reverse_cons, List.map_append, List.foldl_append, ih hrest]
      simp [Nat.ofDigits_cons, digitChar_toNat_sub d hdd]
      ring

theorem natToChars_all_digits (n : ℕ) : (natToChars n).all isDigitChar = true := by
  rw [natToChars_eq_digits]
  split
  · rfl
  · rw [List.all_eq_true]
    intro c hc
    rw [List.mem_map] at hc
    obtain ⟨d, hdm, hdc⟩ := hc
    rw [List.mem_reverse] at hdm
    rw [← hdc]
    exact digitChar_isDigit d (Nat.digits_lt_base (by norm_num) hdm)

theorem natToChars_ne_nil (n : ℕ) : natToChars n ≠ [] := by
  rw [natToChars_eq_digits]
  split
  · simp
  · intro h
    have := congrArg List.length h
    simp at this
    rename_i hn
    exact hn (Nat.digits_eq_nil_iff_eq_zero.mp this)

theorem natToChars_no_char (n : ℕ) (c : Char) (hc : isDigitChar c = false) :
    c ∉ natToChars n := by
  intro hmem
  have := natToChars_all_digits n
  rw [List.all_eq_true] at this
  have := this c hmem
  rw [hc] at this
  cases this

theorem parseNat_natToChars (n : ℕ) : parseNat (natToChars n) = some n := by
  unfold parseNat
  rw [if_pos ⟨natToChars_ne_nil n, natToChars_all_digits n⟩]
  rw [natToChars_eq_digits]
  by_cases h : n = 0
  · subst h; rfl
  · rw [if_neg h]
    rw [foldl_digits _ (fun d hd => Nat.digits_lt_base (by norm_num) hd)]
    rw [Nat.ofDigits_digits]

theorem natToChars_head_ne_dash (n : ℕ) :
    ∀ c rest, natToChars n = c :: rest → c ≠ '-' := by
  intro c rest h hc
  subst hc
  have : ('-' : Char) ∈ natToChars n := h ▸ List.mem_cons_self _ _
  exact natToChars_no_char n '-' (by rfl) this

theorem parseInt_intToChars (n : ℤ) : parseInt (intToChars n) = some n := by
  unfold intToChars
  by_cases h : n < 0
  · rw [if_pos h]
    simp [parseInt, parseNat_natToChars]
    omega
  · rw [if_neg h]
    have hh : ¬((natToChars n.toNat).head? = some '-') := by
      rcases he : natToChars n.toNat with _ | ⟨c, rest⟩
      · simp
      · simp only [List.head?_cons, Option.some_inj]
        exact natToChars_head_ne_dash n.toNat c rest he
    simp [parseInt, hh, parseNat_natToChars]
    omega

theorem intToChars_inj : Function.Injective intToChars := by
  intro a b h
  have ha := parseInt_intToChars a
  rw [h, parseInt_intToChars b] at ha
  exact (Option.some_inj.mp ha).symm

theorem intToChars_nonneg_no_dash (n : ℤ) (h : 0 ≤ n) : '-' ∉ intToChars n := by
  unfold intToChars
  rw [if_neg (by omega)]
  exact natToChars_no_char _ '-' (by rfl)

theorem pySplit_sep_free (sep : Char) (a : List Char) (ha : sep ∉ a) :
    pySplit sep a = [a] := by
  induction a with
  | nil => rfl
  | cons c rest ih =>
      have hc : c ≠ sep := fun h => ha (h ▸ List.mem_cons_self c rest)
      have hrest : sep ∉ rest := fun h => ha (List.mem_cons_of_mem c h)
      simp [pySplit, hc, ih hrest]

theorem pySplit_append (sep : Char) (a b : List Char) (ha : sep ∉ a) :
    pySplit sep (a ++ sep :: b) = a :: pySplit sep b := by
  induction a with
  | nil =>
      simp [pySplit]
  | cons c rest ih =>
      have hc : c ≠ sep := fun h => ha (h ▸ List.mem_cons_self c rest)
      have hrest : sep ∉ rest := fun h => ha (List.mem_cons_of_mem c h)
      simp [pySplit, hc, ih hrest]

theorem pySplit_two (sep : Char) (a b : List Char) (ha : sep ∉ a) (hb : sep ∉ b) :
    pySplit sep (a ++ sep :: b) = [a, b] := by
  rw [pySplit_append sep a b ha, pySplit_sep_free sep b hb]

/-- cancellation at a separator character: character lists that do not
contain the separator are uniquely delimited by it -/
theorem sep_append_inj (sep : Char) (a b x y : List Char)
    (hax : sep ∉ a) (hbx : sep ∉ b)
    (h : a ++ sep :: x = b ++ sep :: y) : a = b ∧ x = y := by
  have := congrArg (pySplit sep) h
  rw [pySplit_append sep a x hax, pySplit_append sep b y hbx] at this
  obtain ⟨h1, h2⟩ := List.cons.injEq _ _ _ _ ▸ this
  constructor
  · exact h1
  · have hx := pySplit_sep_free sep x
    -- recover x and y from the equality of their splits
    have : pySplit sep x = pySplit sep y := h2
    -- split the tails instead: append-cancel on the original equality
    have h3 : sep :: x = sep :: y := by
      have := h
      rw [h1] at this
      exact List.append_cancel_left this
    exact (List.cons.injEq _ _ _ _ ▸ h3).2

end PrimitiveLemmas

section PyDict

/-- a Python value as far as the embedded fragment needs: strings, ints,
`None`, and the float-valued dicts used for probability tables -/
inductive PyVal where
  | pstr (s : List Char)
  | pint (n : ℤ)
  | pnone
  | pdict (entries : List (List Char × ℚ))
deriving DecidableEq

/-- a Python dict with string keys: insertion-ordered association list -/
abbrev PyDict := List (List Char × PyVal)

/-- Python `d[k]` / `d.get(k)` lookup -/
def dictGet (d : PyDict) (k : List Char) : Option PyVal :=
  match d with
  | [] => none
  | (k', v) :: rest => if k' = k then some v else dictGet rest k

/-- Python `d[k] = v`: update in place, or append a new key at the end -/
def dictSet (d : PyDict) (k : List Char) (v : PyVal) : PyDict :=
  match d with
  | [] => [(k, v)]
  | (k', v') :: rest => if k' = k then (k', v) :: rest else (k', v') :: dictSet rest k v

/-- Python `del d[k]`: Python dict keys are unique, so deleting the key
is removing every entry carrying it -/
def dictDel (d : PyDict) (k : List Char) : PyDict :=
  match d with
  | [] => []
  | (k', v') :: rest => if k' = k then dictDel rest k else (k', v') :: dictDel rest k

/-- Python `d.setdefault(k, v)` -/
def dictSetdefault (d : PyDict) (k : List Char) (v : PyVal) : PyDict :=
  match dictGet d k with
  | some _ => d
  | none => dictSet d k v

/-- Python `str(v)`.  Strings are themselves, ints render in decimal and
`None` renders as `None`; the dict rendering (never reached by a claim) is
abbreviated. -/
def pyValStr (v : PyVal) : List Char :=
  match v with
  | PyVal.pstr s => s
  | PyVal.pint n => intToChars n
  | PyVal.pnone => chars "None"
  | PyVal.pdict _ => chars "dict"

/-- Python `int(v)`: ints pass through, decimal strings parse, anything
else raises (`none`) -/
def pyToInt (v : PyVal) : Option ℤ :=
  match v with
  | PyVal.pint n => some n
  | PyVal.pstr s => parseInt s
  | _ => none

end PyDict

section MingusNotes

/-!
`mingus.core.notes`: the third-party note primitives used by
`music_app/notes.py` and `music_app/chords.py`.  A valid mingus note is an
upper-case letter `C D E F G A B` followed by any mix of `#` and `b`.
-/

/-- pitch class of a natural letter (`mingus._note_dict`) -/
def naturalPc (c : Char) : Option ℤ :=
  if c = 'C' then some 0
  else if c = 'D' then some 2
  else if c = 'E' then some 4
  else if c = 'F' then some 5
  else if c = 'G' then some 7
  else if c = 'A' then some 9
  else if c = 'B' then some 11
  else none

/-- is the character an accidental -/
def isAccidental (c : Char) : Bool := c = '#' || c = 'b'

/-- net accidental offset of a suffix: `#` is +1, `b` is -1
(the loop body of `mingus.core.notes.note_to_int`) -/
def accOffset (l : List Char) : ℤ :=
  l.foldl (fun a p => if p = 'b' then a - 1 else if p = '#' then a + 1 else a) 0

/-- `mingus.core.notes.note_to_int`: pitch class (mod 12) of a note name;
`none` models `NoteFormatError` on an invalid name -/
def note_to_int (s : List Char) : Option ℤ :=
  match s with
  | [] => none
  | c :: rest =>
      match naturalPc c with
      | none => none
      | some v =>
          if rest.all isAccidental then some ((v + accOffset rest) % 12)
          else none

/-- the twelve sharp-normalized note names, indexed by pitch class
(the table of `mingus.core.notes.int_to_note` with `accidentals = '#'`) -/
def sharpNames : List (List Char) :=
  [chars "C", chars "C#", chars "D", chars "D#", chars "E", chars "F",
   chars "F#", chars "G", chars "G#", chars "A", chars "A#", chars "B"]

/-- `mingus.core.notes.int_to_note`: name of a pitch class in 0..11;
`none` models `RangeError` -/
def int_to_note (n : ℤ) : Option (List Char) :=
  if 0 ≤ n ∧ n < 12 then some (sharpNames.getD n.toNat []) else none

end MingusNotes

section NotesPy

/-- `music_app/notes.py` `transpose_note`: parse `"Name-octave"` (octave
defaults to 4 without a dash), add the semitones to the pitch class with
octave carry, and re-serialize with the sharp-normalized name.  `none`
models the `ValueError` of unpacking/`int()` or mingus `NoteFormatError`.
Python `//` and `%` (positive divisor 12) are `Int.ediv` / `Int.emod`. -/
def transpose_note (note : List Char) (semitones : ℤ) : Option (List Char) :=
  let parsed : Option (List Char × ℤ) :=
    if '-' ∈ note then
      match pySplit '-' note with
      | [base, octStr] => (parseInt octStr).map (fun o => (base, o))
      | _ => none
    else some (note, 4)
  match parsed with
  | none => none
  | some (base, octave) =>
      match note_to_int base with
      | none => none
      | some base_number =>
          let total := base_number + semitones
          let new_pc := total % 12
          let octave_change := total / 12
          match int_to_note new_pc with
          | none => none
          | some new_note => some (new_note ++ '-' :: intToChars (octave + octave_change))

end NotesPy

section MingusChords

/-!
`mingus.core.intervals` / `mingus.core.chords`: the triad constructors used
by `music_app/chords.py`.  mingus builds each chord tone by taking the
k-th note of the major scale of the root's bare letter
(`interval(note[0], note, k)`) and then augmenting/diminishing it until its
distance from the root is exactly the wanted number of semitones
(`augment_or_diminish_until_the_interval_is_right`), finally rebuilding the
name canonically (letter plus only `#`s or only `b`s) after reducing an
accidental count beyond ±6.  A parsed note is a letter index (0..6 for
C D E F G A B) plus a net accidental offset.
-/

/-- a parsed mingus note: letter index (0 = C .. 6 = B) and accidentals -/
structure MNote where
  letter : Fin 7
  acc : ℤ
deriving DecidableEq

/-- letter characters in order -/
def letterChars : List Char := ['C', 'D', 'E', 'F', 'G', 'A', 'B']

/-- pitch class of each natural letter, by letter index -/
def letterPc (i : Fin 7) : ℤ := [0, 2, 4, 5, 7, 9, 11].getD i.val 0

/-- letter index of a character -/
def letterIdx (c : Char) : Option (Fin 7) :=
  if c = 'C' then some 0
  else if c = 'D' then some 1
  else if c = 'E' then some 2
  else if c = 'F' then some 3
  else if c = 'G' then some 4
  else if c = 'A' then some 5
  else if c = 'B' then some 6
  else none

/-- parse a valid mingus note name into letter and net accidental offset -/
def parseMNote (s : List Char) : Option MNote :=
  match s with
  | [] => none
  | c :: rest =>
      match letterIdx c with
      | none => none
      | some L =>
          if rest.all isAccidental then some ⟨L, accOffset rest⟩ else none

/-- pitch class (mod 12) of a parsed note; agrees with `note_to_int` -/
def mnotePc (m : MNote) : ℤ := (letterPc m.letter + m.acc) % 12

/-- canonical rendering: letter followed by only `#`s (positive offset) or
only `b`s (negative offset); this is exactly how
`augment_or_diminish_until_the_interval_is_right` rebuilds its result -/
def renderMNote (m : MNote) : List Char :=
  letterChars.getD m.letter.val ' ' ::
    (if 0 ≤ m.acc then List.replicate m.acc.toNat '#' else List.replicate (-m.acc).toNat 'b')

/-- semitone offset of the k-th degree of a major scale -/
def majorOffset (k : Fin 7) : ℤ := [0, 2, 4, 5, 7, 9, 11].getD k.val 0

/-- the k-th note of the major scale of a natural letter
(`mingus.core.keys.get_notes` for the seven natural major keys: consecutive
letters with the accidentals of the standard key signature) -/
def scaleNote (L : Fin 7) (k : Fin 7) : MNote :=
  let letter : Fin 7 := ⟨(L.val + k.val) % 7, Nat.mod_lt _ (by norm_num)⟩
  let wrap : ℤ := if L.val + k.val ≥ 7 then 12 else 0
  { letter := letter, acc := (letterPc L + majorOffset k) - (letterPc letter + wrap) }

/-- the accidental-count reduction at the end of
`augment_or_diminish_until_the_interval_is_right` (Python `%` with a
negative right operand is `Int.fmod`) -/
def reduceAcc (v : ℤ) : ℤ :=
  if v > 6 then -12 + v % 12
  else if v < -6 then 12 + Int.fmod v (-12)
  else v

/-- one tone of a mingus chord: scale step `k` above the root's letter,
augmented/diminished until it lies exactly `d` semitones (mod 12) above the
root, then canonically rebuilt -/
def mingusTone (root : MNote) (k : Fin 7) (d : ℤ) : MNote :=
  let start := scaleNote root.letter k
  let cur := (mnotePc start - mnotePc root) % 12
  { letter := start.letter, acc := reduceAcc (start.acc + (d - cur)) }

/-- `mingus.core.notes.augment`: one sharper (used on an already canonical
name, so it is an accidental increment) -/
def augmentNote (m : MNote) : MNote := { m with acc := m.acc + 1 }

/-- shared shape of the six mingus triad constructors: the original root
string followed by two constructed tones -/
def mingusTriad (root : List Char) (k1 : Fin 7) (d1 : ℤ) (k2 : Fin 7) (d2 : ℤ)
    (augFifth : Bool) : Option (List (List Char)) :=
  match parseMNote root with
  | none => none
  | some m =>
      let t2 := mingusTone m k2 d2
      some [root, renderMNote (mingusTone m k1 d1),
            renderMNote (if augFifth then augmentNote t2 else t2)]

/-- `mingus.core.chords.major_triad` -/
def major_triad (root : List Char) : Option (List (List Char)) :=
  mingusTriad root 2 4 4 7 false

/-- `mingus.core.chords.minor_triad` -/
def minor_triad (root : List Char) : Option (List (List Char)) :=
  mingusTriad root 2 3 4 7 false

/-- `mingus.core.chords.diminished_triad` -/
def diminished_triad (root : List Char) : Option (List (List Char)) :=
  mingusTriad root 2 3 4 6 false

/-- `mingus.core.chords.augmented_triad` (the fifth is
`notes.augment(intervals.major_fifth(note))`) -/
def augmented_triad (root : List Char) : Option (List (List Char)) :=
  mingusTriad root 2 4 4 7 true

/-- `mingus.core.chords.suspended_second_triad` -/
def suspended_second_triad (root : List Char) : Option (List (List Char)) :=
  mingusTriad root 1 2 4 7 false

/-- `mingus.core.chords.suspended_fourth_triad` -/
def suspended_fourth_triad (root : List Char) : Option (List (List Char)) :=
  mingusTriad root 3 5 4 7 false

end MingusChords

section ChordsPy

/-- `music_app/chords.py` `get_chord_quality`: infers a quality from the
"intervals" of the chord, computed as `(ord(note[0]) - ord(root[0])) % 12`
(the distance between the leading characters of the note names, not a
semitone distance).  `none` models the `IndexError` of `note[0]` on an
empty string. -/
def get_chord_quality (chord : List (List Char)) : Option (List Char) :=
  if chord.length < 3 then some (chars "unknown")
  else
    match chord with
    | [] => some (chars "unknown")
    | root :: rest =>
        match root.head? with
        | none => none
        | some rc =>
            match rest.mapM (fun note =>
                (note.head?).map (fun nc =>
                  ((nc.toNat : ℤ) - (rc.toNat : ℤ)) % 12)) with
            | none => none
            | some intervals =>
                some (if intervals = [4, 7] then chars "major"
                  else if intervals = [3, 7] then chars "minor"
                  else if intervals = [3, 6] then chars "diminished"
                  else if intervals = [4, 8] then chars "augmented"
                  else chars "unknown")

/-- `music_app/chords.py` `get_suspended_chord`: `sus2` or `sus4` triad
from mingus, any other tag defaulting to `sus4` -/
def get_suspended_chord (root : List Char) (suspension_type : List Char) :
    Option (List (List Char)) :=
  if suspension_type = chars "sus2" then suspended_second_triad root
  else suspended_fourth_triad root

/-- the flat-to-sharp table of the local `normalize_note` helpers in
`music_app/chords.py` (`_add_octaves_to_chord_notes`,
`_get_note_with_interval`) -/
def flatToSharp (note : List Char) : List Char :=
  if note = chars "Db" then chars "C#"
  else if note = chars "Eb" then chars "D#"
  else if note = chars "Gb" then chars "F#"
  else if note = chars "Ab" then chars "G#"
  else if note = chars "Bb" then chars "A#"
  else note

/-- the `note_order` list of `music_app/chords.py` -/
def note_order : List (List Char) :=
  [chars "C", chars "C#", chars "D", chars "D#", chars "E", chars "F",
   chars "F#", chars "G", chars "G#", chars "A", chars "A#", chars "B"]

/-- Python `list.index`: position of the first occurrence, `none` models
`ValueError` -/
def listIndexOf (x : List Char) : List (List Char) → Option ℕ
  | [] => none
  | y :: ys => if y = x then some 0 else (listIndexOf x ys).map Nat.succ

/-- the per-note body of the octave loop in `_add_octaves_to_chord_notes`:
octave + 1 when the note's pitch-class index is below the root's, then
clamped into [1, 7] by `max(1, min(7, octave))` -/
def addOctLoop (root_index : ℕ) (octave : ℤ) :
    List (List Char) → Option (List ℤ)
  | [] => some []
  | n :: rest =>
      match listIndexOf (flatToSharp n) note_order with
      | none => none
      | some ni =>
          match addOctLoop root_index octave rest with
          | none => none
          | some os =>
              some (max 1 (min 7 (if ni < root_index then octave + 1 else octave)) :: os)

/-- `music_app/chords.py` `_add_octaves_to_chord_notes`: octave of the root
is the base octave, later notes are bumped an octave when their
(sharp-normalized) pitch-class index is numerically below the root's and
clamped into [1, 7]; the original (unnormalized) names are serialized.
`none` models the `IndexError`/`ValueError` on an empty list or a name
outside `note_order` after normalization. -/
def add_octaves_to_chord_notes (chord_notes : List (List Char)) (octave : ℤ) :
    Option (List (List Char)) :=
  match chord_notes with
  | [] => none
  | root :: rest =>
      match listIndexOf (flatToSharp root) note_order with
      | none => none
      | some root_index =>
          match addOctLoop root_index octave rest with
          | none => none
          | some octs =>
              some (List.zipWith (fun n o => n ++ '-' :: intToChars o)
                (root :: rest) (octave :: octs))

/-- the chord-type dispatch block at the top of
`get_chord_notes_with_octaves` in `music_app/chords.py` (`3m` is minor,
`3M` is major, unknown tags default to major) -/
def select_triad (root chord_type : List Char) : Option (List (List Char)) :=
  if chord_type = chars "major" then major_triad root
  else if chord_type = chars "minor" then minor_triad root
  else if chord_type = chars "diminished" then diminished_triad root
  else if chord_type = chars "augmented" then augmented_triad root
  else if chord_type = chars "sus2" then suspended_second_triad root
  else if chord_type = chars "sus4" then suspended_fourth_triad root
  else if chord_type = chars "3m" then minor_triad root
  else if chord_type = chars "3M" then major_triad root
  else major_triad root

/-- `music_app/chords.py` `get_chord_notes_with_octaves`: build the triad
for the chord type and assign octaves -/
def get_chord_notes_with_octaves (root chord_type : List Char) (octave : ℤ) :
    Option (List (List Char)) :=
  match select_triad root chord_type with
  | none => none
  | some chord_notes => add_octaves_to_chord_notes chord_notes octave

end ChordsPy

section SynthesizerNotes

/-- the `note_map` shared by `_note_to_midi_number` and
`_note_to_frequency` in `audio_app/synthesizer.py` -/
def synth_note_map : List (List Char × ℤ) :=
  [(chars "C", 0), (chars "C#", 1), (chars "Db", 1), (chars "D", 2),
   (chars "D#", 3), (chars "Eb", 3), (chars "E", 4), (chars "F", 5),
   (chars "F#", 6), (chars "Gb", 6), (chars "G", 7), (chars "G#", 8),
   (chars "Ab", 8), (chars "A", 9), (chars "A#", 10), (chars "Bb", 10),
   (chars "B", 11)]

/-- lookup in `synth_note_map` -/
def synthNoteLookup (name : List Char) : Option ℤ :=
  List.lookup name synth_note_map

/-- parse of `"Name-octave"` shared by the synthesizer conversions: split
on `-` into exactly two parts with an integer octave, or no dash with
default octave 4.  `none` models the `ValueError` of unpacking or `int()`. -/
def synthParseNote (note : List Char) : Option (List Char × ℤ) :=
  if '-' ∈ note then
    match pySplit '-' note with
    | [base, octStr] => (parseInt octStr).map (fun o => (base, o))
    | _ => none
  else some (note, 4)

/-- `audio_app/synthesizer.py` `AudioSynthesizer._note_to_midi_number`:
`(octave + 1) * 12 + note_map.get(base, 0)` — unknown names fall back to
pitch class 0 -/
def note_to_midi_number (note : List Char) : Option ℤ :=
  match synthParseNote note with
  | none => none
  | some (base, octave) =>
      some ((octave + 1) * 12 + (synthNoteLookup base).getD 0)

/-- `audio_app/synthesizer.py` `AudioSynthesizer._note_to_frequency`,
represented by the `total_semitones` relative to A4 that it feeds into
`440 * 2 ** (total_semitones / 12)`; the frequency is a strictly monotone
function of this value, and unknown names fall back to
`note_map.get(name, 9)` — pitch class 9 (A) -/
def note_to_frequency_semitones (note : List Char) : Option ℤ :=
  match synthParseNote note with
  | none => none
  | some (name, octave) =>
      some ((synthNoteLookup name).getD 9 + (octave - 4) * 12 - 9)

end SynthesizerNotes

section AudioCache

/-!
`audio_app/synthesizer.py` cache keys.  Each `synthesize_*` entry point
builds a canonical content string and keys the cache by
`_generate_cache_key(content) = hashlib.md5(content.encode()).hexdigest()`.
The MD5 digest is a fixed deterministic function of the content string, so
key equality follows from content equality, and two requests can only have
different keys when their content strings differ; the embedding therefore
reasons about the canonical content strings (the digest input).  Durations
are Python floats interpolated by `str()`; they enter the model as their
rendered character strings.
-/

/-- content string of `synthesize_notes`:
`f"notes:{','.join(notes)}:duration:{duration}"` -/
def cache_content_notes (notes : List (List Char)) (duration : List Char) : List Char :=
  chars "notes:" ++ (joinSep ',' notes ++ (chars ":duration:" ++ duration))

/-- content string of `synthesize_chord` (also used by
`synthesize_interval`): `f"chord:{','.join(chord_notes)}:duration:{duration}"` -/
def cache_content_chord (chord_notes : List (List Char)) (duration : List Char) : List Char :=
  chars "chord:" ++ (joinSep ',' chord_notes ++ (chars ":duration:" ++ duration))

/-- content string of `synthesize_melodic_interval` -/
def cache_content_melodic (note1 note2 note_duration gap_duration : List Char) : List Char :=
  chars "melodic_interval:" ++ (note1 ++ ':' :: (note2 ++
    (chars ":duration:" ++ (note_duration ++ (chars ":gap:" ++ gap_duration)))))

/-- content string of `synthesize_harmonic_interval` -/
def cache_content_harmonic (note1 note2 duration : List Char) : List Char :=
  chars "harmonic_interval:" ++ (note1 ++ ':' :: (note2 ++
    (chars ":duration:" ++ duration)))

/-- content string of `synthesize_staggered_interval` (`delay_ms` is an int) -/
def cache_content_staggered (note1 note2 root_duration second_duration : List Char)
    (delay_ms : ℤ) : List Char :=
  chars "staggered_interval:" ++ (note1 ++ ':' :: (note2 ++
    (chars ":root:" ++ (root_duration ++ (chars ":second:" ++ (second_duration ++
      (chars ":delay:" ++ intToChars delay_ms)))))))

/-- content string of `synthesize_progression`:
`f"progression:{len(progression)}:duration:{chord_duration}"` — only the
number of chords and the duration enter the key -/
def cache_content_progression (progression : List (List (List Char)))
    (chord_duration : List Char) : List Char :=
  chars "progression:" ++ (natToChars progression.length ++
    (chars ":duration:" ++ chord_duration))

end AudioCache

section StaggeredSynthesis

/-- Python `int()` applied to a number: truncation toward zero -/
def pyTrunc (q : ℚ) : ℤ := if 0 ≤ q then ⌊q⌋ else ⌈q⌉

/-- `audio_app/synthesizer.py`
`AudioSynthesizer._create_synthetic_staggered_interval`, over exact
rationals.  `tone1`/`tone2` give the sample sequences that
`_generate_piano_tone` produces for the two notes (its sine/exponential
arithmetic is transcendental and irrelevant to the mixing claims, so the
tones are parameters; `len(audio_i) = int(44100 * duration_i)` from
`np.linspace(0, d, int(44100 * d), False)`).  The numpy buffer is built as
`zeros(total)`, then `combined[:root_samples] = audio1`, then — only under
the guard `second_end <= total_samples` —
`combined[second_start:second_end] += audio2`. -/
def create_synthetic_staggered_interval (tone1 tone2 : ℕ → ℚ)
    (root_duration second_duration : ℚ) (delay_ms : ℤ) : List ℚ :=
  let sample_rate : ℚ := 44100
  let delay_seconds : ℚ := (delay_ms : ℚ) / 1000
  let total_duration := max root_duration (delay_seconds + second_duration)
  let total_samples := (pyTrunc (sample_rate * total_duration)).toNat
  let root_samples := (pyTrunc (sample_rate * root_duration)).toNat
  let second_samples := (pyTrunc (sample_rate * second_duration)).toNat
  let second_start := (pyTrunc (sample_rate * delay_seconds)).toNat
  let second_end := second_start + second_samples
  let afterRoot : ℕ → ℚ := fun k => if k < root_samples then tone1 k else 0
  let afterSecond : ℕ → ℚ :=
    if second_end ≤ total_samples then
      fun k =>
        if second_start ≤ k ∧ k < second_end then afterRoot k + tone2 (k - second_start)
        else afterRoot k
    else afterRoot
  (List.range total_samples).map afterSecond

end StaggeredSynthesis

section ExerciseFramework

/-- the cumulative-probability loop of `BaseExercise.weighted_choice`:
returns the first choice whose running cumulative weight reaches `rand`
(`if rand <= cumulative: return choice`), or `none` when the loop falls
through -/
def wc_loop (rand : ℚ) : ℚ → List (List Char × ℚ) → Option (List Char)
  | _, [] => none
  | cumulative, (c, w) :: rest =>
      if rand ≤ cumulative + w then some c
      else wc_loop rand (cumulative + w) rest

/-- `exercises/base/exercise.py` `BaseExercise.weighted_choice`.
Randomness enters as parameters: `rand` is the `random.random()` draw in
[0, 1) and `choiceIdx` the index drawn by `random.choice` in the all-zero
fallback.  `none` models the `IndexError` of `random.choice([])` /
`list(...)[0]` on an empty dict. -/
def weighted_choice (weights : List (List Char × ℚ)) (rand : ℚ) (choiceIdx : ℕ) :
    Option (List Char) :=
  let total_weight := (weights.map Prod.snd).sum
  if total_weight = 0 then (weights.map Prod.fst).get? choiceIdx
  else
    let normalized := weights.map (fun kv => (kv.1, kv.2 / total_weight))
    match wc_loop rand 0 normalized with
    | some choice => some choice
    | none => (weights.map Prod.fst).head?

/-- `exercises/base/exercise.py` `BaseExercise.validate_config`: builds a
fresh dict with `key` stringified and `difficulty` kept only when
`int(config["difficulty"])` lands in [1, 10]; `none` models the uncaught
`ValueError`/`TypeError` of that `int()` call -/
def base_validate_config (config : PyDict) : Option PyDict :=
  let v1 : PyDict :=
    match dictGet config (chars "key") with
    | some kv => [(chars "key", PyVal.pstr (pyValStr kv))]
    | none => []
  match dictGet config (chars "difficulty") with
  | none => some v1
  | some dv =>
      match pyToInt dv with
      | none => none
      | some d =>
          some (if 1 ≤ d ∧ d ≤ 10 then v1 ++ [(chars "difficulty", PyVal.pint d)] else v1)

/-- an `ExerciseResult` (`exercises/base/metadata.py`) -/
structure ExerciseResult where
  is_correct : Bool
  user_answer : PyVal
  correct_answer : PyVal
  feedback : List Char
deriving DecidableEq

/-- an `ExerciseData` (`exercises/base/metadata.py`); the audio handle is
represented by the canonical content string of the render request it
triggers (the concrete file path is environment-dependent and irrelevant
to every claim) -/
structure ExerciseData where
  key : List Char
  scale : List (List Char)
  progression_audio : Option (List Char)
  target_audio : Option (List Char)
  options : List (List Char)
  correct_answer : List Char
  context : PyDict
deriving DecidableEq

/-- a `BaseIntervalExercise` instance
(`exercises/base/interval_exercise.py`): the constructor arguments that
parameterize the concrete level-1 exercises -/
structure IntervalExercise where
  intervals : List (List Char)
  exercise_type : List Char
  timing : List Char

/-- the `interval_map` table of `BaseIntervalExercise._get_interval_semitones` -/
def interval_semitones_table : List (List Char × ℤ) :=
  [(chars "unison", 0), (chars "minor_second", 1), (chars "major_second", 2),
   (chars "minor_third", 3), (chars "major_third", 4), (chars "perfect_fourth", 5),
   (chars "augmented_fourth", 6), (chars "diminished_fifth", 6),
   (chars "perfect_fifth", 7), (chars "minor_sixth", 8), (chars "major_sixth", 9),
   (chars "minor_seventh", 10), (chars "major_seventh", 11),
   (chars "octave", 12)]

/-- `BaseIntervalExercise._get_interval_semitones`
(`exercises/base/interval_exercise.py`); unknown names default to 0 -/
def get_interval_semitones (interval : List Char) : ℤ :=
  (List.lookup interval interval_semitones_table).getD 0

/-- the token table of `BaseIntervalExercise._get_interval_` `notation`
(e.g. `major_third` to `3M`); unknown names fall back to
`interval.replace("_", " ").title()`, modelled only for the names the
exercises use (a claim never reaches the fallback) -/
def get_interval_token (interval : List Char) : List Char :=
  (List.lookup interval
    [(chars "unison", chars "1J"), (chars "minor_second", chars "2m"),
     (chars "major_second", chars "2M"), (chars "minor_third", chars "3m"),
     (chars "major_third", chars "3M"), (chars "perfect_fourth", chars "4J"),
     (chars "augmented_fourth", chars "4+"), (chars "diminished_fifth", chars "5Â°"),
     (chars "perfect_fifth", chars "5J"), (chars "minor_sixth", chars "6m"),
     (chars "major_sixth", chars "6M"), (chars "minor_seventh", chars "7m"),
     (chars "major_seventh", chars "7M"), (chars "octave", chars "8J")]).getD interval

/-- the `reference_notes` list in the exercise metadata
(`config_options["reference_notes"]` built by `_create_metadata`) -/
def reference_notes_default : List (List Char) :=
  [chars "C", chars "D", chars "E", chars "F", chars "G", chars "A", chars "B"]

/-- `BaseIntervalExercise.validate_config`: copies the overrides, defaults
`question_number`/`octave`, coerces `question_number` with a caught
`int()` (falling back to 1 on failure or out-of-range), and deletes
`reference_note`/`interval` values not in the allowed lists.  Total: this
validator catches its only fallible conversion, so it never raises.  The
metadata `total_questions` is 20. -/
def interval_validate_config (ex : IntervalExercise) (config : PyDict) : PyDict :=
  let v1 := dictSetdefault config (chars "question_number") (PyVal.pint 1)
  let v2 := dictSetdefault v1 (chars "octave") (PyVal.pint 4)
  let qn : ℤ :=
    match dictGet v2 (chars "question_number") with
    | some val =>
        match pyToInt val with
        | some n => n
        | none => 1
    | none => 1
  let v3 := dictSet v2 (chars "question_number") (PyVal.pint qn)
  let v4 := if 1 ≤ qn ∧ qn ≤ 20 then v3 else dictSet v3 (chars "question_number") (PyVal.pint 1)
  let v5 :=
    match dictGet v4 (chars "reference_note") with
    | some rv =>
        if rv ∈ reference_notes_default.map PyVal.pstr then v4
        else dictDel v4 (chars "reference_note")
    | none => v4
  match dictGet v5 (chars "interval") with
  | some iv =>
      if iv ∈ ex.intervals.map PyVal.pstr then v5
      else dictDel v5 (chars "interval")
  | none => v5

/-- `BaseIntervalExercise.generate`.  Randomness enters as parameters:
`randNote` is the index drawn by `random.choice(available_notes)`, and
`randWC`/`randWCidx` feed the `weighted_choice` call — both calls are
evaluated eagerly as Python evaluates the default argument of
`config.get(...)` even when the key is present.  Audio synthesis is
represented by the canonical cache content of the triggered render
request.  `none` models an exception escaping `generate`. -/
def interval_generate (ex : IntervalExercise) (kwargs : PyDict)
    (randNote : ℕ) (randWC : ℚ) (randWCidx : ℕ) : Option ExerciseData :=
  let config := interval_validate_config ex kwargs
  let reference_note : List Char :=
    match dictGet config (chars "reference_note") with
    | some v => pyValStr v
    | none => reference_notes_default.getD randNote []
  let octave : PyVal := (dictGet config (chars "octave")).getD (PyVal.pint 4)
  let reference_note_with_octave := reference_note ++ '-' :: pyValStr octave
  let probsOpt : Option (List (List Char × ℚ)) :=
    match dictGet config (chars "interval_probabilities") with
    | none => some (ex.intervals.map (fun i => (i, 1 / (ex.intervals.length : ℚ))))
    | some (PyVal.pdict d) => some d
    | some _ => none
  match probsOpt with
  | none => none
  | some probs =>
      match weighted_choice probs randWC randWCidx with
      | none => none
      | some wcChoice =>
          let interval : List Char :=
            match dictGet config (chars "interval") with
            | some v => pyValStr v
            | none => wcChoice
          match transpose_note reference_note_with_octave (get_interval_semitones interval) with
          | none => none
          | some second_note =>
              let audio :=
                if ex.timing = chars "melodic" then
                  cache_content_staggered reference_note_with_octave second_note
                    (chars "1.5") (chars "1.5") 400
                else
                  cache_content_harmonic reference_note_with_octave second_note
                    (chars "1.5")
              let question_number := (dictGet config (chars "question_number")).getD (PyVal.pint 1)
              some
                { key := chars "Question " ++ pyValStr question_number ++
                    chars "/" ++ intToChars 20
                  scale := []
                  progression_audio := none
                  target_audio := some audio
                  options := ex.intervals.map get_interval_token
                  correct_answer := get_interval_token interval
                  context :=
                    [(chars "reference_note", PyVal.pstr reference_note_with_octave),
                     (chars "second_note", PyVal.pstr second_note),
                     (chars "interval", PyVal.pstr interval),
                     (chars "interval_semitones", PyVal.pint (get_interval_semitones interval)),
                     (chars "question_number", question_number),
                     (chars "total_questions", PyVal.pint 20),
                     (chars "timing", PyVal.pstr ex.timing),
                     (chars "octave", octave)] }

/-- `BaseIntervalExercise.check_answer`: reads the correct answer from
`context.get("correct_answer")` (`None` when the key is absent) and
compares it to the submitted answer with Python `==` -/
def interval_check_answer (answer : PyVal) (context : PyDict) : ExerciseResult :=
  let correct_answer := (dictGet context (chars "correct_answer")).getD PyVal.pnone
  { is_correct := decide (answer = correct_answer)
    user_answer := answer
    correct_answer := correct_answer
    feedback :=
      if answer = correct_answer then chars "Correct! Well done!"
      else chars "Incorrect. The correct answer was " ++ pyValStr correct_answer ++ chars "." }

end ExerciseFramework

section TransposeLemmas

theorem sharpName_no_dash (pcv : ℤ) (h0 : 0 ≤ pcv) (h12 : pcv < 12) :
    '-' ∉ sharpNames.getD pcv.toNat [] := by
  interval_cases pcv <;> decide

theorem note_to_int_sharpName (pcv : ℤ) (h0 : 0 ≤ pcv) (h12 : pcv < 12) :
    note_to_int (sharpNames.getD pcv.toNat []) = some pcv := by
  interval_cases pcv <;> decide

/-- behaviour of `transpose_note` on a canonical serialized note: sharp
name, dash, non-negative decimal octave -/
theorem transpose_note_canonical (pcv : ℤ) (h0 : 0 ≤ pcv) (h12 : pcv < 12)
    (oct n : ℤ) (hoct : 0 ≤ oct) :
    transpose_note (sharpNames.getD pcv.toNat [] ++ '-' :: intToChars oct) n
      = some (sharpNames.getD (((pcv + n) % 12)).toNat [] ++
          '-' :: intToChars (oct + ((pcv + n) / 12))) := by
  have hmem : '-' ∈ sharpNames.getD pcv.toNat [] ++ '-' :: intToChars oct := by
    simp
  have hsplit : pySplit '-' (sharpNames.getD pcv.toNat [] ++ '-' :: intToChars oct)
      = [sharpNames.getD pcv.toNat [], intToChars oct] :=
    pySplit_two '-' _ _ (sharpName_no_dash pcv h0 h12) (intToChars_nonneg_no_dash oct hoct)
  have hint : int_to_note (((pcv + n) % 12))
      = some (sharpNames.getD (((pcv + n) % 12)).toNat []) := by
    unfold int_to_note
    rw [if_pos ⟨Int.emod_nonneg _ (by norm_num), Int.emod_lt_of_pos _ (by norm_num)⟩]
  simp only [transpose_note, if_pos hmem, hsplit, parseInt_intToChars, Option.map_some',
    note_to_int_sharpName pcv h0 h12, hint]

end TransposeLemmas

/-- C4 counterexample.  The claimed identity
`transpose_note(transpose_note(note, n), -n) = note` fails on the code for
note strings that are not in canonical serialized form: a bare name
(octave omitted) comes back with the default octave appended, a flat name
comes back sharp-normalized, and a round trip through a negative
intermediate octave raises in the second call (the serialized
`"C--1"` splits into three parts). -/
theorem C4_transpose_roundtrip_counterexample :
    (transpose_note (chars "C") 1).bind (fun s => transpose_note s (-1))
        = some (chars "C-4") ∧
      chars "C-4" ≠ chars "C" ∧
    (transpose_note (chars "Bb-4") 1).bind (fun s => transpose_note s (-1))
        = some (chars "A#-4") ∧
      chars "A#-4" ≠ chars "Bb-4" ∧
    (transpose_note (chars "C-1") (-24)).bind (fun s => transpose_note s 24) = none := by
  decide

/-- C4 (amended): transposition is self-inverse on canonically serialized
notes.  For every pitch class `pcv` (with its sharp-normalized name), every
non-negative octave, and every `n` in [-24, 24] such that the intermediate
octave `octave + (pcv + n) // 12` stays non-negative,
`transpose_note(transpose_note(note, n), -n)` returns the original note. -/
theorem C4_transpose_roundtrip_amended (pcv : ℤ) (h0 : 0 ≤ pcv) (h12 : pcv < 12)
    (oct n : ℤ) (hoct : 0 ≤ oct) (hlo : -24 ≤ n) (hhi : n ≤ 24)
    (hmid : 0 ≤ oct + ((pcv + n) / 12)) :
    (transpose_note (sharpNames.getD pcv.toNat [] ++ '-' :: intToChars oct) n).bind
        (fun s => transpose_note s (-n))
      = some (sharpNames.getD pcv.toNat [] ++ '-' :: intToChars oct) := by
  rw [transpose_note_canonical pcv h0 h12 oct n hoct]
  rw [Option.some_bind]
  have hpc0 : 0 ≤ ((pcv + n) % 12) := Int.emod_nonneg _ (by norm_num)
  have hpc12 : ((pcv + n) % 12) < 12 := Int.emod_lt_of_pos _ (by norm_num)
  rw [transpose_note_canonical _ hpc0 hpc12 _ _ hmid]
  have k1 : 12 * Int.ediv (pcv + n) 12 + Int.emod (pcv + n) 12 = pcv + n :=
    Int.ediv_add_emod (pcv + n) 12
  have hr0 : 0 ≤ ((pcv + n) % 12) := Int.emod_nonneg _ (by norm_num)
  have hr12 : ((pcv + n) % 12) < 12 := Int.emod_lt_of_pos _ (by norm_num)
  have e1 : (((pcv + n) % 12) + -n) % 12 = pcv := by
    generalize he : ((pcv + n) / 12) = e at k1
    generalize hrr : ((pcv + n) % 12) = r at k1 hr0 hr12 ⊢
    omega
  have e2 : oct + ((pcv + n) / 12) + (((pcv + n) % 12) + -n) / 12 = oct := by
    generalize he : ((pcv + n) / 12) = e at k1 ⊢
    generalize hrr : ((pcv + n) % 12) = r at k1 hr0 hr12 ⊢
    omega
  rw [e1, e2]

/-- C4 witness: the amended identity applied at `E-4` (pitch class 4),
transposing by 9 and back -/
theorem C4_transpose_roundtrip_witness :
    (0 : ℤ) ≤ 4 ∧ (4 : ℤ) < 12 ∧ (0 : ℤ) ≤ 4 ∧ (-24 : ℤ) ≤ 9 ∧ (9 : ℤ) ≤ 24 ∧
      (0 : ℤ) ≤ 4 + (((4 : ℤ) + 9) / 12) ∧
    (transpose_note (chars "E-4") 9).bind (fun s => transpose_note s (-9))
      = some (chars "E-4") := by
  refine ⟨by norm_num, by norm_num, by norm_num, by norm_num, by norm_num, by decide, ?_⟩
  have h := C4_transpose_roundtrip_amended 4 (by norm_num) (by norm_num) 4 9
    (by norm_num) (by norm_num) (by norm_num) (by decide)
  have he : sharpNames.getD (4 : ℤ).toNat [] ++ '-' :: intToChars 4 = chars "E-4" := by decide
  rw [he] at h
  exact h

section FallbackLemmas

theorem intToChars_ofNat (n : ℕ) : intToChars (n : ℤ) = natToChars n := by
  unfold intToChars
  rw [if_neg (by omega)]
  norm_num

/-- the synthesizer note parse on a canonical `"Name-octave"` string -/
theorem synthParseNote_canonical (name : List Char) (hdash : '-' ∉ name)
    (oct : ℤ) (hoct : 0 ≤ oct) :
    synthParseNote (name ++ '-' :: intToChars oct) = some (name, oct) := by
  have hmem : '-' ∈ name ++ '-' :: intToChars oct := by simp
  have hsplit : pySplit '-' (name ++ '-' :: intToChars oct) = [name, intToChars oct] :=
    pySplit_two '-' _ _ hdash (intToChars_nonneg_no_dash oct hoct)
  simp only [synthParseNote, if_pos hmem, hsplit, parseInt_intToChars, Option.map_some']

end FallbackLemmas

/-- C5 counterexample.  The claim says both the note-to-frequency and the
note-to-MIDI conversion fall back to pitch class 0 on an unrecognized note
name; in the code only `_note_to_midi_number` does
(`note_map.get(base_note, 0)`), while `_note_to_frequency` uses
`note_map.get(note_name, 9)` — pitch class 9, the pitch of A.  The unknown
name `X-4` gets the frequency of `A-4` (semitone offset 0 from A4), not of
`C-4` (offset -9), while its MIDI number does match `C-4`. -/
theorem C5_fallback_counterexample :
    note_to_frequency_semitones (chars "X-4") = some 0 ∧
    note_to_frequency_semitones (chars "A-4") = some 0 ∧
    note_to_frequency_semitones (chars "C-4") = some (-9) ∧
    note_to_midi_number (chars "X-4") = some 60 ∧
    note_to_midi_number (chars "C-4") = some 60 := by
  decide

/-- C5 (amended): for every unrecognized note name (with a well-formed
octave suffix) the conversions return a defined value instead of raising:
the MIDI conversion falls back to pitch class 0, giving
`(octave + 1) * 12`, while the frequency conversion falls back to pitch
class 9 (A), giving semitone offset `(octave - 4) * 12` from A4; an
unrecognized interval name maps to 0 semitones. -/
theorem C5_fallback_amended (name : List Char) (hdash : '-' ∉ name)
    (hunk : synthNoteLookup name = none) (oct : ℤ) (hoct : 0 ≤ oct)
    (iv : List Char) (hivunk : List.lookup iv interval_semitones_table = none) :
    note_to_midi_number (name ++ '-' :: intToChars oct) = some ((oct + 1) * 12) ∧
    note_to_frequency_semitones (name ++ '-' :: intToChars oct)
        = some ((oct - 4) * 12) ∧
    get_interval_semitones iv = 0 := by
  refine ⟨?_, ?_, ?_⟩
  · simp only [note_to_midi_number, synthParseNote_canonical name hdash oct hoct,
      hunk, Option.getD_none]
    ring_nf
  · simp only [note_to_frequency_semitones, synthParseNote_canonical name hdash oct hoct,
      hunk, Option.getD_none]
    ring_nf
  · simp only [get_interval_semitones, hivunk, Option.getD_none]

/-- C5 witness: the amended statement applied to the unknown note name `X`
at octave 4 and the unknown interval name `quint` -/
theorem C5_fallback_witness :
    ('-' ∉ chars "X") ∧ synthNoteLookup (chars "X") = none ∧ (0 : ℤ) ≤ 4 ∧
      List.lookup (chars "quint") interval_semitones_table = none ∧
    (note_to_midi_number (chars "X" ++ '-' :: intToChars 4) = some 60 ∧
      note_to_frequency_semitones (chars "X" ++ '-' :: intToChars 4) = some 0 ∧
      get_interval_semitones (chars "quint") = 0) := by
  refine ⟨by decide, by decide, by norm_num, by decide, ?_⟩
  have h := C5_fallback_amended (chars "X") (by decide) (by decide) 4 (by norm_num)
    (chars "quint") (by decide)
  simpa using h

/-- C7.  The claim (and §4.2 of the spec) requires generic chord-quality
detection to classify suspended chords as a distinct suspended category,
not as unknown.  The code has no suspended branch at all, and its
"interval" computation `(ord(note[0]) - ord(root[0])) % 12` measures the
distance between the leading characters of the note names, so
`get_chord_quality` returns `"unknown"` for the sus2 and sus4 triads on
every natural root — and even for the plain C major triad
`["C", "E", "G"]`, contradicting its own documented purpose. -/
theorem C7_suspended_quality_unknown :
    (reference_notes_default.all (fun root =>
      [chars "sus2", chars "sus4"].all (fun st =>
        decide ((get_suspended_chord root st).bind get_chord_quality
          = some (chars "unknown"))))) = true ∧
    get_suspended_chord (chars "C") (chars "sus4")
        = some [chars "C", chars "F", chars "G"] ∧
    get_chord_quality [chars "C", chars "F", chars "G"] = some (chars "unknown") ∧
    get_chord_quality [chars "C", chars "E", chars "G"] = some (chars "unknown") := by
  decide

section JoinLemmas

theorem natToChars_inj : Function.Injective natToChars := by
  intro a b h
  have ha := parseNat_natToChars a
  rw [h, parseNat_natToChars b] at ha
  exact (Option.some_inj.mp ha).symm

theorem natToChars_no_colon (n : ℕ) : ':' ∉ natToChars n :=
  natToChars_no_char n ':' (by rfl)

/-- prefix cancellation with the prefix given explicitly (guides
unification where the append nesting is ambiguous) -/
theorem cancelPre (pre : List Char) (x y : List Char) (h : pre ++ x = pre ++ y) :
    x = y := List.append_cancel_left h

theorem joinSep_cons₂ (sep : Char) (x y : List Char) (ys : List (List Char)) :
    joinSep sep (x :: y :: ys) = x ++ sep :: joinSep sep (y :: ys) := rfl

theorem pySplit_joinSep (sep : Char) (l : List (List Char))
    (h : ∀ s ∈ l, sep ∉ s) (hn : l ≠ []) :
    pySplit sep (joinSep sep l) = l := by
  induction l with
  | nil => cases hn rfl
  | cons x xs ih =>
      cases xs with
      | nil =>
          show pySplit sep (joinSep sep [x]) = [x]
          exact pySplit_sep_free sep x (h x (List.mem_cons_self x []))
      | cons y ys =>
          rw [joinSep_cons₂]
          rw [pySplit_append sep x _ (h x (List.mem_cons_self x _))]
          rw [ih (fun s hs => h s (List.mem_cons_of_mem x hs)) (by simp)]

theorem joinSep_inj (sep : Char) (l1 l2 : List (List Char))
    (h1 : ∀ s ∈ l1, sep ∉ s) (h2 : ∀ s ∈ l2, sep ∉ s)
    (hn1 : l1 ≠ []) (hn2 : l2 ≠ []) (h : joinSep sep l1 = joinSep sep l2) :
    l1 = l2 := by
  have := congrArg (pySplit sep) h
  rwa [pySplit_joinSep sep l1 h1 hn1, pySplit_joinSep sep l2 h2 hn2] at this

theorem joinSep_not_mem (sep c : Char) (hne : c ≠ sep) (l : List (List Char))
    (h : ∀ s ∈ l, c ∉ s) : c ∉ joinSep sep l := by
  induction l with
  | nil => simp [joinSep]
  | cons x xs ih =>
      cases xs with
      | nil =>
          show c ∉ joinSep sep [x]
          exact h x (List.mem_cons_self x [])
      | cons y ys =>
          rw [joinSep_cons₂]
          intro hmem
          rcases List.mem_append.mp hmem with hx | hrest
          · exact h x (List.mem_cons_self x _) hx
          · rcases List.mem_cons.mp hrest with hc | hj
            · exact hne hc
            · exact ih (fun s hs => h s (List.mem_cons_of_mem x hs)) hj

end JoinLemmas

/-- C2 counterexample.  The canonical content string of a chord
progression is `f"progression:{len(progression)}:duration:{chord_duration}"`
— it does not mention the notes.  Two one-chord progressions with
different chords and the same duration produce the identical content
string, hence (the cache key being the MD5 digest of that string) the
identical cache key, refuting "two requests differing in any
waveform-affecting parameter (including the notes of a chord progression)
produce different cache keys". -/
theorem C2_cache_key_counterexample :
    cache_content_progression [[chars "C", chars "E", chars "G"]] (chars "1.5")
        = cache_content_progression [[chars "D", chars "F", chars "A"]] (chars "1.5") ∧
      ([[chars "C", chars "E", chars "G"]] : List (List (List Char)))
        ≠ [[chars "D", chars "F", chars "A"]] := by
  decide

/-- C2 (amended): the cache key is the MD5 digest of a deterministic
canonical content string, so identical parameters give identical keys; for
the notes, chord, melodic-interval, harmonic-interval, and
staggered-interval renders the content string is injective in all
waveform-affecting parameters (notes free of the separator characters,
durations, gap, delay), so any differing parameter changes the digest
input; but the progression content string is determined by the number of
chords and the chord duration alone — the notes of a progression do not
enter the key. -/
theorem C2_cache_key_amended :
    (∀ n1 n2 rd sd : List Char, ∀ dm : ℤ, ∀ n1' n2' rd' sd' : List Char, ∀ dm' : ℤ,
      ':' ∉ n1 → ':' ∉ n2 → ':' ∉ rd → ':' ∉ sd →
      ':' ∉ n1' → ':' ∉ n2' → ':' ∉ rd' → ':' ∉ sd' →
      (cache_content_staggered n1 n2 rd sd dm = cache_content_staggered n1' n2' rd' sd' dm'
        ↔ (n1 = n1' ∧ n2 = n2' ∧ rd = rd' ∧ sd = sd' ∧ dm = dm'))) ∧
    (∀ n1 n2 d n1' n2' d' : List Char,
      ':' ∉ n1 → ':' ∉ n2 → ':' ∉ n1' → ':' ∉ n2' →
      (cache_content_harmonic n1 n2 d = cache_content_harmonic n1' n2' d'
        ↔ (n1 = n1' ∧ n2 = n2' ∧ d = d'))) ∧
    (∀ notes notes' : List (List Char), ∀ d d' : List Char,
      (∀ s ∈ notes, ',' ∉ s ∧ ':' ∉ s) → (∀ s ∈ notes', ',' ∉ s ∧ ':' ∉ s) →
      notes ≠ [] → notes' ≠ [] →
      (cache_content_chord notes d = cache_content_chord notes' d'
        ↔ (notes = notes' ∧ d = d'))) ∧
    (∀ p p' : List (List (List Char)), ∀ d d' : List Char,
      (cache_content_progression p d = cache_content_progression p' d'
        ↔ (p.length = p'.length ∧ d = d'))) ∧
    (∀ notes notes' : List (List Char), ∀ d d' : List Char,
      (∀ s ∈ notes, ',' ∉ s ∧ ':' ∉ s) → (∀ s ∈ notes', ',' ∉ s ∧ ':' ∉ s) →
      notes ≠ [] → notes' ≠ [] →
      (cache_content_notes notes d = cache_content_notes notes' d'
        ↔ (notes = notes' ∧ d = d'))) ∧
    (∀ n1 n2 nd gd n1' n2' nd' gd' : List Char,
      ':' ∉ n1 → ':' ∉ n2 → ':' ∉ nd →
      ':' ∉ n1' → ':' ∉ n2' → ':' ∉ nd' →
      (cache_content_melodic n1 n2 nd gd = cache_content_melodic n1' n2' nd' gd'
        ↔ (n1 = n1' ∧ n2 = n2' ∧ nd = nd' ∧ gd = gd'))) := by
  refine ⟨?_, ?_, ?_, ?_, ?_, ?_⟩
  · intro n1 n2 rd sd dm n1' n2' rd' sd' dm' a1 a2 a3 a4 b1 b2 b3 b4
    constructor
    · intro h
      unfold cache_content_staggered at h
      have h1 := cancelPre (chars "staggered_interval:") _ _ h
      obtain ⟨hn1, h2⟩ := sep_append_inj ':' _ _ _ _ a1 b1 h1
      rw [show chars ":root:" = ':' :: chars "root:" from by decide] at h2
      simp only [List.cons_append] at h2
      obtain ⟨hn2, h3⟩ := sep_append_inj ':' _ _ _ _ a2 b2 h2
      have h4 := cancelPre (chars "root:") _ _ h3
      rw [show chars ":second:" = ':' :: chars "second:" from by decide] at h4
      simp only [List.cons_append] at h4
      obtain ⟨hrd, h5⟩ := sep_append_inj ':' _ _ _ _ a3 b3 h4
      have h6 := cancelPre (chars "second:") _ _ h5
      rw [show chars ":delay:" = ':' :: chars "delay:" from by decide] at h6
      simp only [List.cons_append] at h6
      obtain ⟨hsd, h7⟩ := sep_append_inj ':' _ _ _ _ a4 b4 h6
      have h8 := cancelPre (chars "delay:") _ _ h7
      exact ⟨hn1, hn2, hrd, hsd, intToChars_inj h8⟩
    · rintro ⟨rfl, rfl, rfl, rfl, rfl⟩
      rfl
  · intro n1 n2 d n1' n2' d' a1 a2 b1 b2
    constructor
    · intro h
      unfold cache_content_harmonic at h
      have h1 := cancelPre (chars "harmonic_interval:") _ _ h
      obtain ⟨hn1, h2⟩ := sep_append_inj ':' _ _ _ _ a1 b1 h1
      rw [show chars ":duration:" = ':' :: chars "duration:" from by decide] at h2
      simp only [List.cons_append] at h2
      obtain ⟨hn2, h3⟩ := sep_append_inj ':' _ _ _ _ a2 b2 h2
      exact ⟨hn1, hn2, cancelPre (chars "duration:") _ _ h3⟩
    · rintro ⟨rfl, rfl, rfl⟩
      rfl
  · intro notes notes' d d' hfree hfree' hne hne'
    constructor
    · intro h
      unfold cache_content_chord at h
      have h1 := cancelPre (chars "chord:") _ _ h
      rw [show chars ":duration:" = ':' :: chars "duration:" from by decide] at h1
      simp only [List.cons_append] at h1
      have hj : ':' ∉ joinSep ',' notes :=
        joinSep_not_mem ',' ':' (by decide) notes (fun s hs => (hfree s hs).2)
      have hj' : ':' ∉ joinSep ',' notes' :=
        joinSep_not_mem ',' ':' (by decide) notes' (fun s hs => (hfree' s hs).2)
      obtain ⟨hjoin, h2⟩ := sep_append_inj ':' _ _ _ _ hj hj' h1
      refine ⟨?_, cancelPre (chars "duration:") _ _ h2⟩
      exact joinSep_inj ',' notes notes' (fun s hs => (hfree s hs).1)
        (fun s hs => (hfree' s hs).1) hne hne' hjoin
    · rintro ⟨rfl, rfl⟩
      rfl
  · intro p p' d d'
    constructor
    · intro h
      unfold cache_content_progression at h
      have h1 := cancelPre (chars "progression:") _ _ h
      rw [show chars ":duration:" = ':' :: chars "duration:" from by decide] at h1
      simp only [List.cons_append] at h1
      obtain ⟨hlen, h2⟩ := sep_append_inj ':' _ _ _ _
        (natToChars_no_colon _) (natToChars_no_colon _) h1
      exact ⟨natToChars_inj hlen, cancelPre (chars "duration:") _ _ h2⟩
    · rintro ⟨hlen, rfl⟩
      unfold cache_content_progression
      rw [hlen]
  · intro notes notes' d d' hfree hfree' hne hne'
    constructor
    · intro h
      unfold cache_content_notes at h
      have h1 := cancelPre (chars "notes:") _ _ h
      rw [show chars ":duration:" = ':' :: chars "duration:" from by decide] at h1
      simp only [List.cons_append] at h1
      have hj : ':' ∉ joinSep ',' notes :=
        joinSep_not_mem ',' ':' (by decide) notes (fun s hs => (hfree s hs).2)
      have hj' : ':' ∉ joinSep ',' notes' :=
        joinSep_not_mem ',' ':' (by decide) notes' (fun s hs => (hfree' s hs).2)
      obtain ⟨hjoin, h2⟩ := sep_append_inj ':' _ _ _ _ hj hj' h1
      refine ⟨?_, cancelPre (chars "duration:") _ _ h2⟩
      exact joinSep_inj ',' notes notes' (fun s hs => (hfree s hs).1)
        (fun s hs => (hfree' s hs).1) hne hne' hjoin
    · rintro ⟨rfl, rfl⟩
      rfl
  · intro n1 n2 nd gd n1' n2' nd' gd' a1 a2 a3 b1 b2 b3
    constructor
    · intro h
      unfold cache_content_melodic at h
      have h1 := cancelPre (chars "melodic_interval:") _ _ h
      obtain ⟨hn1, h2⟩ := sep_append_inj ':' _ _ _ _ a1 b1 h1
      rw [show chars ":duration:" = ':' :: chars "duration:" from by decide] at h2
      simp only [List.cons_append] at h2
      obtain ⟨hn2, h3⟩ := sep_append_inj ':' _ _ _ _ a2 b2 h2
      have h4 := cancelPre (chars "duration:") _ _ h3
      rw [show chars ":gap:" = ':' :: chars "gap:" from by decide] at h4
      simp only [List.cons_append] at h4
      obtain ⟨hnd, h5⟩ := sep_append_inj ':' _ _ _ _ a3 b3 h4
      exact ⟨hn1, hn2, hnd, cancelPre (chars "gap:") _ _ h5⟩
    · rintro ⟨rfl, rfl, rfl, rfl⟩
      rfl

/-- C2 witness: two staggered requests differing only in the second note
and two single-note renders differing only in the note have different
canonical content strings (hence different digest inputs), while two
one-chord progressions with different notes share the content string -/
theorem C2_cache_key_witness :
    cache_content_staggered (chars "C-4") (chars "E-4") (chars "1.5") (chars "1.5") 400
        ≠ cache_content_staggered (chars "C-4") (chars "G-4") (chars "1.5") (chars "1.5") 400 ∧
      cache_content_notes [chars "C-4"] (chars "2.0")
        ≠ cache_content_notes [chars "D-4"] (chars "2.0") ∧
      cache_content_melodic (chars "C-4") (chars "E-4") (chars "1.0") (chars "0.5")
        ≠ cache_content_melodic (chars "C-4") (chars "G-4") (chars "1.0") (chars "0.5") ∧
      cache_content_progression [[chars "C", chars "E", chars "G"]] (chars "1.5")
        = cache_content_progression [[chars "F", chars "A", chars "C"]] (chars "1.5") := by
  refine ⟨?_, ?_, ?_, ?_⟩
  · intro h
    have hne := ((C2_cache_key_amended.1 (chars "C-4") (chars "E-4") (chars "1.5")
      (chars "1.5") 400 (chars "C-4") (chars "G-4") (chars "1.5") (chars "1.5") 400
      (by decide) (by decide) (by decide) (by decide)
      (by decide) (by decide) (by decide) (by decide)).mp h).2.1
    exact absurd hne (by decide)
  · intro h
    have hne := ((C2_cache_key_amended.2.2.2.2.1 [chars "C-4"] [chars "D-4"]
      (chars "2.0") (chars "2.0")
      (by intro s hs; rcases List.mem_singleton.mp hs with rfl; exact ⟨by decide, by decide⟩)
      (by intro s hs; rcases List.mem_singleton.mp hs with rfl; exact ⟨by decide, by decide⟩)
      (by decide) (by decide)).mp h).1
    exact absurd hne (by decide)
  · intro h
    have hne := ((C2_cache_key_amended.2.2.2.2.2 (chars "C-4") (chars "E-4")
      (chars "1.0") (chars "0.5") (chars "C-4") (chars "G-4") (chars "1.0") (chars "0.5")
      (by decide) (by decide) (by decide)
      (by decide) (by decide) (by decide)).mp h).2.1
    exact absurd hne (by decide)
  · exact (C2_cache_key_amended.2.2.2.1 [[chars "C", chars "E", chars "G"]]
      [[chars "F", chars "A", chars "C"]] (chars "1.5") (chars "1.5")).mpr ⟨rfl, rfl⟩

section DictLemmas

theorem dictGet_set_self (d : PyDict) (k : List Char) (v : PyVal) :
    dictGet (dictSet d k v) k = some v := by
  induction d with
  | nil => simp [dictSet, dictGet]
  | cons p rest ih =>
      obtain ⟨k', v'⟩ := p
      by_cases hk : k' = k
      · simp [dictSet, dictGet, hk]
      · simp [dictSet, dictGet, hk, ih]

theorem dictGet_set_ne (d : PyDict) (k k' : List Char) (v : PyVal) (h : k ≠ k') :
    dictGet (dictSet d k v) k' = dictGet d k' := by
  induction d with
  | nil => simp [dictSet, dictGet, h]
  | cons p rest ih =>
      obtain ⟨k0, v0⟩ := p
      by_cases hk : k0 = k
      · subst hk
        simp [dictSet, dictGet, h]
      · simp only [dictSet, if_neg hk, dictGet]
        by_cases hk' : k0 = k'
        · simp [hk']
        · simp [hk', ih]

theorem dictGet_del_self (d : PyDict) (k : List Char) :
    dictGet (dictDel d k) k = none := by
  induction d with
  | nil => simp [dictDel, dictGet]
  | cons p rest ih =>
      obtain ⟨k0, v0⟩ := p
      by_cases hk : k0 = k
      · simp [dictDel, hk, ih]
      · simp [dictDel, dictGet, hk, ih]

theorem dictGet_del_ne (d : PyDict) (k k' : List Char) (h : k ≠ k') :
    dictGet (dictDel d k) k' = dictGet d k' := by
  induction d with
  | nil => simp [dictDel]
  | cons p rest ih =>
      obtain ⟨k0, v0⟩ := p
      by_cases hk : k0 = k
      · subst hk
        simp [dictDel, dictGet, h, Ne.symm h, ih]
      · simp only [dictDel, if_neg hk, dictGet]
        by_cases hk' : k0 = k'
        · simp [hk']
        · simp [hk', ih]

theorem dictGet_setdefault_self (d : PyDict) (k : List Char) (v : PyVal) :
    dictGet (dictSetdefault d k v) k = some ((dictGet d k).getD v) := by
  unfold dictSetdefault
  cases h : dictGet d k with
  | none => simp [dictGet_set_self]
  | some w => simp [h]

theorem dictGet_setdefault_ne (d : PyDict) (k k' : List Char) (v : PyVal) (h : k ≠ k') :
    dictGet (dictSetdefault d k v) k' = dictGet d k' := by
  unfold dictSetdefault
  cases hg : dictGet d k with
  | none => simp [dictGet_set_ne d k k' v h]
  | some w => rfl

end DictLemmas

/-- C6 counterexample.  Configuration validation does not always discard
invalid overrides silently: `BaseExercise.validate_config` runs
`int(config["difficulty"])` outside any try/except, so a wrong-typed
difficulty (`"hard"`) raises `ValueError` instead of being discarded —
while an out-of-range difficulty (25) is indeed silently dropped. -/
theorem C6_validate_config_counterexample :
    base_validate_config [(chars "difficulty", PyVal.pstr (chars "hard"))] = none ∧
    base_validate_config [(chars "difficulty", PyVal.pint 25)] = some [] := by
  decide

/-- C6 (amended): validation discards the invalid overrides it checks and
falls back to defaults, except that the base validator's difficulty
coercion can itself raise.  Precisely: when the difficulty override is
`int()`-convertible, `BaseExercise.validate_config` never raises, keeping
the value only when it lies in [1, 10] and silently dropping it otherwise
(a non-convertible difficulty raises, per the counterexample); without a
difficulty override it never raises; and
`BaseIntervalExercise.validate_config` is total (its only fallible
conversion is caught): for every override map it silently discards an
unknown reference note or interval and normalizes `question_number` into
[1, 20].  Overrides it does not check (e.g. `octave`) pass through
unvalidated. -/
theorem C6_validate_config_amended :
    (∀ config : PyDict, ∀ dv, dictGet config (chars "difficulty") = some dv →
      ∀ n : ℤ, pyToInt dv = some n →
      ∃ v, base_validate_config config = some v ∧
        (¬(1 ≤ n ∧ n ≤ 10) → dictGet v (chars "difficulty") = none) ∧
        ((1 ≤ n ∧ n ≤ 10) → dictGet v (chars "difficulty") = some (PyVal.pint n))) ∧
    (∀ config : PyDict, dictGet config (chars "difficulty") = none →
      ∃ v, base_validate_config config = some v) ∧
    (∀ ex : IntervalExercise, ∀ config : PyDict,
      (∀ rv, dictGet (interval_validate_config ex config) (chars "reference_note") = some rv →
        rv ∈ reference_notes_default.map PyVal.pstr) ∧
      (∀ iv, dictGet (interval_validate_config ex config) (chars "interval") = some iv →
        iv ∈ ex.intervals.map PyVal.pstr) ∧
      (∃ q : ℤ, dictGet (interval_validate_config ex config) (chars "question_number")
          = some (PyVal.pint q) ∧ 1 ≤ q ∧ q ≤ 20)) := by
  refine ⟨?_, ?_, ?_⟩
  · intro config dv hdv n hn
    simp only [base_validate_config, hdv, hn]
    cases hk : dictGet config (chars "key") with
    | none =>
        simp only [hk]
        by_cases hr : 1 ≤ n ∧ n ≤ 10
        · rw [if_pos hr]
          exact ⟨_, rfl, fun hc => absurd hr hc, fun _ => by simp [dictGet]⟩
        · rw [if_neg hr]
          exact ⟨_, rfl, fun _ => by simp [dictGet], fun hc => absurd hc hr⟩
    | some kv =>
        simp only [hk]
        by_cases hr : 1 ≤ n ∧ n ≤ 10
        · rw [if_pos hr]
          refine ⟨_, rfl, fun hc => absurd hr hc, fun _ => ?_⟩
          simp [dictGet, show ¬(chars "key" = chars "difficulty") from by decide]
        · rw [if_neg hr]
          refine ⟨_, rfl, fun _ => ?_, fun hc => absurd hc hr⟩
          simp [dictGet, show ¬(chars "key" = chars "difficulty") from by decide]
  · intro config hdv
    simp only [base_validate_config, hdv]
    exact ⟨_, rfl⟩
  · intro ex config
    unfold interval_validate_config
    set v2 := dictSetdefault (dictSetdefault config (chars "question_number") (PyVal.pint 1))
      (chars "octave") (PyVal.pint 4) with hv2
    set qn := (match dictGet v2 (chars "question_number") with
      | some val => (match pyToInt val with | some n => n | none => 1)
      | none => 1 : ℤ) with hqn
    set v3 := dictSet v2 (chars "question_number") (PyVal.pint qn) with hv3
    set v4 := (if 1 ≤ qn ∧ qn ≤ 20 then v3
      else dictSet v3 (chars "question_number") (PyVal.pint 1)) with hv4
    set v5 := (match dictGet v4 (chars "reference_note") with
      | some rv =>
          if rv ∈ reference_notes_default.map PyVal.pstr then v4
          else dictDel v4 (chars "reference_note")
      | none => v4) with hv5
    set v6 := (match dictGet v5 (chars "interval") with
      | some iv =>
          if iv ∈ ex.intervals.map PyVal.pstr then v5
          else dictDel v5 (chars "interval")
      | none => v5) with hv6
    have hqn4 : ∃ q : ℤ, dictGet v4 (chars "question_number") = some (PyVal.pint q) ∧
        1 ≤ q ∧ q ≤ 20 := by
      by_cases hr : 1 ≤ qn ∧ qn ≤ 20
      · exact ⟨qn, by rw [hv4, if_pos hr, hv3, dictGet_set_self], hr.1, hr.2⟩
      · exact ⟨1, by rw [hv4, if_neg hr, dictGet_set_self], le_refl 1, by norm_num⟩
    have href5 : ∀ rv, dictGet v5 (chars "reference_note") = some rv →
        rv ∈ reference_notes_default.map PyVal.pstr := by
      intro rv hrv
      rw [hv5] at hrv
      cases hg : dictGet v4 (chars "reference_note") with
      | none =>
          simp only [hg] at hrv
          exact Option.noConfusion hrv
      | some rw0 =>
          simp only [hg] at hrv
          by_cases hmem : rw0 ∈ reference_notes_default.map PyVal.pstr
          · rw [if_pos hmem, hg] at hrv
            cases hrv
            exact hmem
          · rw [if_neg hmem, dictGet_del_self] at hrv
            exact Option.noConfusion hrv
    have hqn5 : dictGet v5 (chars "question_number")
        = dictGet v4 (chars "question_number") := by
      rw [hv5]
      cases hg : dictGet v4 (chars "reference_note") with
      | none => simp only [hg]
      | some rw0 =>
          simp only [hg]
          by_cases hmem : rw0 ∈ reference_notes_default.map PyVal.pstr
          · rw [if_pos hmem]
          · rw [if_neg hmem]
            exact dictGet_del_ne _ _ _ (by decide)
    have hother6 : ∀ k, k ≠ chars "interval" → dictGet v6 k = dictGet v5 k := by
      intro k hk
      rw [hv6]
      cases hg : dictGet v5 (chars "interval") with
      | none => simp only [hg]
      | some iv0 =>
          simp only [hg]
          by_cases hmem : iv0 ∈ ex.intervals.map PyVal.pstr
          · rw [if_pos hmem]
          · rw [if_neg hmem]
            exact dictGet_del_ne _ _ _ (Ne.symm hk)
    have hiv6 : ∀ iv, dictGet v6 (chars "interval") = some iv →
        iv ∈ ex.intervals.map PyVal.pstr := by
      intro iv hiv
      rw [hv6] at hiv
      cases hg : dictGet v5 (chars "interval") with
      | none =>
          simp only [hg] at hiv
          exact Option.noConfusion hiv
      | some iv0 =>
          simp only [hg] at hiv
          by_cases hmem : iv0 ∈ ex.intervals.map PyVal.pstr
          · rw [if_pos hmem, hg] at hiv
            cases hiv
            exact hmem
          · rw [if_neg hmem, dictGet_del_self] at hiv
            exact Option.noConfusion hiv
    refine ⟨?_, hiv6, ?_⟩
    · intro rv hrv
      rw [hother6 _ (by decide)] at hrv
      exact href5 rv hrv
    · obtain ⟨q, hq, h1, h2⟩ := hqn4
      refine ⟨q, ?_, h1, h2⟩
      rw [hother6 _ (by decide), hqn5]
      exact hq

/-- C6 witness: the amended statement applied to an override map with an
out-of-range but convertible difficulty and an interval-exercise override
map with an unknown reference note -/
theorem C6_validate_config_witness :
    (dictGet [(chars "difficulty", PyVal.pint 25)] (chars "difficulty")
        = some (PyVal.pint 25) ∧
      pyToInt (PyVal.pint 25) = some 25 ∧
      (∃ v, base_validate_config [(chars "difficulty", PyVal.pint 25)] = some v ∧
        dictGet v (chars "difficulty") = none)) ∧
    (∀ rv, dictGet (interval_validate_config
        ⟨[chars "major_third"], chars "t", chars "melodic"⟩
        [(chars "reference_note", PyVal.pstr (chars "Z"))]) (chars "reference_note")
          = some rv → rv ∈ reference_notes_default.map PyVal.pstr) := by
  constructor
  · refine ⟨by decide, by decide, ?_⟩
    obtain ⟨v, hv, hnone, _⟩ := C6_validate_config_amended.1
      [(chars "difficulty", PyVal.pint 25)] (PyVal.pint 25) (by decide) 25 (by decide)
    exact ⟨v, hv, hnone (by norm_num)⟩
  · exact (C6_validate_config_amended.2.2
      ⟨[chars "major_third"], chars "t", chars "melodic"⟩
      [(chars "reference_note", PyVal.pstr (chars "Z"))]).1

section WeightedChoiceLemmas

theorem wc_loop_eq_some (r : ℚ) (l : List (List Char × ℚ)) (acc : ℚ) (c : List Char) :
    wc_loop r acc l = some c ↔
      ∃ i, ∃ hi : i < l.length, c = (l.get ⟨i, hi⟩).1 ∧
        r ≤ acc + ((l.take (i + 1)).map Prod.snd).sum ∧
        ∀ j < i, ¬ r ≤ acc + ((l.take (j + 1)).map Prod.snd).sum := by
  induction l generalizing acc with
  | nil => simp [wc_loop]
  | cons hd rest ih =>
      obtain ⟨c0, w⟩ := hd
      by_cases hle : r ≤ acc + w
      · simp only [wc_loop, if_pos hle]
        constructor
        · intro h
          cases h
          exact ⟨0, by simp, rfl, by simpa using hle, by omega⟩
        · rintro ⟨i, hi, hc, hreach, hmin⟩
          cases i with
          | zero => simp [hc]
          | succ i' =>
              exact absurd (by simpa using hle) (by simpa using hmin 0 (Nat.succ_pos i'))
      · simp only [wc_loop, if_neg hle]
        rw [ih (acc + w)]
        constructor
        · rintro ⟨i, hi, hc, hreach, hmin⟩
          refine ⟨i + 1, by simpa using Nat.succ_lt_succ hi, by simpa using hc, ?_, ?_⟩
          · simpa [add_assoc] using hreach
          · intro j hj
            cases j with
            | zero => simpa using hle
            | succ j' =>
                have := hmin j' (Nat.lt_of_succ_lt_succ hj)
                simpa [add_assoc] using this
        · rintro ⟨i, hi, hc, hreach, hmin⟩
          cases i with
          | zero => exact absurd (by simpa using hreach) hle
          | succ i' =>
              refine ⟨i', Nat.lt_of_succ_lt_succ hi, by simpa using hc, ?_, ?_⟩
              · simpa [add_assoc] using hreach
              · intro j hj
                have := hmin (j + 1) (Nat.succ_lt_succ hj)
                simpa [add_assoc] using this

theorem wc_loop_total (r : ℚ) (l : List (List Char × ℚ)) (acc : ℚ)
    (h : r ≤ acc + (l.map Prod.snd).sum) (hne : l ≠ []) :
    ∃ c, wc_loop r acc l = some c := by
  induction l generalizing acc with
  | nil => cases hne rfl
  | cons hd rest ih =>
      obtain ⟨c0, w⟩ := hd
      by_cases hle : r ≤ acc + w
      · exact ⟨c0, by simp [wc_loop, hle]⟩
      · have hrestne : rest ≠ [] := by
          intro hnil
          subst hnil
          exact hle (by simpa using h)
        obtain ⟨c, hc⟩ := ih (acc + w) (by simpa [add_assoc] using h) hrestne
        refine ⟨c, ?_⟩
        simp only [wc_loop, if_neg hle]
        exact hc

theorem normalized_sum_one (ws : List (List Char × ℚ)) (ht : (ws.map Prod.snd).sum ≠ 0) :
    ((ws.map (fun kv => (kv.1, kv.2 / (ws.map Prod.snd).sum))).map Prod.snd).sum = 1 := by
  rw [List.map_map]
  have : (Prod.snd ∘ fun kv : List Char × ℚ => (kv.1, kv.2 / (ws.map Prod.snd).sum))
      = fun kv : List Char × ℚ => kv.2 * ((ws.map Prod.snd).sum)⁻¹ := by
    funext kv
    simp [div_eq_mul_inv]
  rw [this, List.sum_map_mul_right]
  exact mul_inv_cancel₀ ht

end WeightedChoiceLemmas

/-- C9: for a non-empty weight map with non-negative weights, a uniform
draw `r` in [0, 1), and a valid fallback index, `weighted_choice` returns a
key of the map without raising; with a non-zero weight sum it returns the
first key (in map order) whose cumulative normalized probability reaches
`r`, and with an all-zero sum it returns the uniformly drawn key. -/
theorem C9_weighted_choice (ws : List (List Char × ℚ)) (r : ℚ) (idx : ℕ)
    (hne : ws ≠ []) (hnn : ∀ p ∈ ws, 0 ≤ p.2) (hr0 : 0 ≤ r) (hr1 : r < 1)
    (hidx : idx < ws.length) :
    ∃ c, weighted_choice ws r idx = some c ∧ c ∈ ws.map Prod.fst ∧
      ((ws.map Prod.snd).sum = 0 → (ws.map Prod.fst).get? idx = some c) ∧
      ((ws.map Prod.snd).sum ≠ 0 →
        ∃ i, ∃ hi : i < ws.length, c = (ws.get ⟨i, hi⟩).1 ∧
          r ≤ ((ws.take (i + 1)).map
              (fun p => p.2 / (ws.map Prod.snd).sum)).sum ∧
          ∀ j < i, ¬ r ≤ ((ws.take (j + 1)).map
              (fun p => p.2 / (ws.map Prod.snd).sum)).sum) := by
  by_cases ht : (ws.map Prod.snd).sum = 0
  · have hlen : idx < (ws.map Prod.fst).length := by simpa using hidx
    refine ⟨(ws.map Prod.fst).get ⟨idx, hlen⟩, ?_, ?_, ?_, ?_⟩
    · simp only [weighted_choice]
      rw [if_pos ht, List.get?_eq_get hlen]
    · exact List.get_mem _ _ _
    · intro _
      rw [List.get?_eq_get hlen]
    · intro hc
      exact absurd ht hc
  · have hsum1 := normalized_sum_one ws ht
    have hnne : ws.map (fun kv => (kv.1, kv.2 / (ws.map Prod.snd).sum)) ≠ [] := by
      simpa using hne
    obtain ⟨c, hc⟩ := wc_loop_total r _ 0
      (by rw [hsum1]; simpa using le_of_lt hr1) hnne
    refine ⟨c, ?_, ?_, fun h0 => absurd h0 ht, fun _ => ?_⟩
    · simp only [weighted_choice]
      rw [if_neg ht, hc]
    · obtain ⟨i, hi, hcg, _, _⟩ := (wc_loop_eq_some r _ 0 c).mp hc
      have hi' : i < ws.length := by simpa using hi
      have : c = (ws.get ⟨i, hi'⟩).1 := by
        rw [hcg]
        simp
      rw [this]
      exact List.mem_map.mpr ⟨_, List.get_mem _ _ _, rfl⟩
    · obtain ⟨i, hi, hcg, hreach, hmin⟩ := (wc_loop_eq_some r _ 0 c).mp hc
      have hi' : i < ws.length := by simpa using hi
      refine ⟨i, hi', by rw [hcg]; simp, ?_, ?_⟩
      · rw [← List.map_take] at hreach
        simpa [List.map_map, Function.comp] using hreach
      · intro j hj
        have := hmin j hj
        rw [← List.map_take] at this
        simpa [List.map_map, Function.comp] using this

/-- C9 witness: the theorem applied to the two-entry map
`{a: 1/2, b: 1/2}` with draw 3/4 and fallback index 0 -/
theorem C9_weighted_choice_witness :
    ([(chars "a", (1 : ℚ)/2), (chars "b", 1/2)] ≠ ([] : List (List Char × ℚ))) ∧
      (0 : ℚ) ≤ 3/4 ∧ (3 : ℚ)/4 < 1 ∧ 0 < 2 ∧
    (∃ c, weighted_choice [(chars "a", (1 : ℚ)/2), (chars "b", 1/2)] (3/4) 0 = some c ∧
      c ∈ [(chars "a", (1 : ℚ)/2), (chars "b", 1/2)].map Prod.fst) := by
  refine ⟨by simp, by norm_num, by norm_num, by norm_num, ?_⟩
  obtain ⟨c, h1, h2, _, _⟩ := C9_weighted_choice
    [(chars "a", (1 : ℚ)/2), (chars "b", 1/2)] (3/4) 0
    (by simp)
    (fun p hp => by
      rcases List.mem_cons.mp hp with rfl | hp2
      · norm_num
      · rcases List.mem_singleton.mp hp2 with rfl
        norm_num)
    (by norm_num) (by norm_num) (by norm_num)
  exact ⟨c, h1, h2⟩

section StaggeredLemmas

theorem range_map_getD (n : ℕ) (f : ℕ → ℚ) (k : ℕ) (hk : k < n) :
    (((List.range n).map f).getD k 0) = f k := by
  rw [List.getD_eq_getElem?_getD]
  simp [List.getElem?_map, List.getElem?_range hk]

theorem pyTrunc_nonneg_eq_floor (q : ℚ) (h : 0 ≤ q) : pyTrunc q = ⌊q⌋ := if_pos h

theorem pyTrunc_nonneg (q : ℚ) (h : 0 ≤ q) : 0 ≤ pyTrunc q := by
  rw [pyTrunc_nonneg_eq_floor q h]
  exact Int.floor_nonneg.mpr h

/-- the arithmetic core of C10: with floor rounding, the second note's end
index never exceeds the total sample count -/
theorem staggered_end_le_total (rd sd : ℚ) (dm : ℤ)
    (hrd : 0 < rd) (hsd : 0 < sd) (hdm : 0 ≤ dm) :
    (pyTrunc (44100 * ((dm : ℚ) / 1000))).toNat + (pyTrunc (44100 * sd)).toNat
      ≤ (pyTrunc (44100 * max rd ((dm : ℚ) / 1000 + sd))).toNat := by
  have hd0 : 0 ≤ (dm : ℚ) / 1000 := by positivity
  have hx : 0 ≤ (44100 : ℚ) * ((dm : ℚ) / 1000) := by positivity
  have hy : 0 ≤ (44100 : ℚ) * sd := by positivity
  have hz : 0 ≤ (44100 : ℚ) * max rd ((dm : ℚ) / 1000 + sd) := by
    have : (0 : ℚ) ≤ max rd ((dm : ℚ) / 1000 + sd) := le_max_of_le_left (le_of_lt hrd)
    positivity
  rw [pyTrunc_nonneg_eq_floor _ hx, pyTrunc_nonneg_eq_floor _ hy,
    pyTrunc_nonneg_eq_floor _ hz]
  have hadd : ⌊(44100 : ℚ) * ((dm : ℚ) / 1000)⌋ + ⌊(44100 : ℚ) * sd⌋
      ≤ ⌊(44100 : ℚ) * ((dm : ℚ) / 1000) + 44100 * sd⌋ := by
    apply Int.le_floor.mpr
    push_cast
    exact add_le_add (Int.floor_le _) (Int.floor_le _)
  have hmono : ⌊(44100 : ℚ) * ((dm : ℚ) / 1000) + 44100 * sd⌋
      ≤ ⌊(44100 : ℚ) * max rd ((dm : ℚ) / 1000 + sd)⌋ := by
    apply Int.floor_le_floor
    rw [← mul_add]
    have := le_max_right rd ((dm : ℚ) / 1000 + sd)
    nlinarith
  have h1 : 0 ≤ ⌊(44100 : ℚ) * ((dm : ℚ) / 1000)⌋ := Int.floor_nonneg.mpr hx
  have h2 : 0 ≤ ⌊(44100 : ℚ) * sd⌋ := Int.floor_nonneg.mpr hy
  omega

/-- the root segment never exceeds the buffer either -/
theorem staggered_root_le_total (rd sd : ℚ) (dm : ℤ)
    (hrd : 0 < rd) (hsd : 0 < sd) (hdm : 0 ≤ dm) :
    (pyTrunc (44100 * rd)).toNat
      ≤ (pyTrunc (44100 * max rd ((dm : ℚ) / 1000 + sd))).toNat := by
  have hx : 0 ≤ (44100 : ℚ) * rd := by positivity
  have hz : 0 ≤ (44100 : ℚ) * max rd ((dm : ℚ) / 1000 + sd) := by
    have : (0 : ℚ) ≤ max rd ((dm : ℚ) / 1000 + sd) := le_max_of_le_left (le_of_lt hrd)
    positivity
  rw [pyTrunc_nonneg_eq_floor _ hx, pyTrunc_nonneg_eq_floor _ hz]
  have : ⌊(44100 : ℚ) * rd⌋ ≤ ⌊(44100 : ℚ) * max rd ((dm : ℚ) / 1000 + sd)⌋ := by
    apply Int.floor_le_floor
    have := le_max_left rd ((dm : ℚ) / 1000 + sd)
    nlinarith
  have h1 : 0 ≤ ⌊(44100 : ℚ) * rd⌋ := Int.floor_nonneg.mpr hx
  omega

end StaggeredLemmas

/-- C10: in the synthetic staggered render, the computed end index of the
second note `int(44100 * delay_seconds) + int(44100 * second_duration)`
never exceeds the total sample count
`int(44100 * max(root_duration, delay_seconds + second_duration))`, so the
guarded `combined[second_start:second_end] += audio2` always executes and
every sample of the second note lands in the output buffer. -/
theorem C10_staggered_write_in_bounds (tone1 tone2 : ℕ → ℚ) (rd sd : ℚ) (dm : ℤ)
    (hrd : 0 < rd) (hsd : 0 < sd) (hdm : 0 ≤ dm) :
    (pyTrunc (44100 * ((dm : ℚ) / 1000))).toNat + (pyTrunc (44100 * sd)).toNat
      ≤ (pyTrunc (44100 * max rd ((dm : ℚ) / 1000 + sd))).toNat ∧
    ∀ k, k < (pyTrunc (44100 * sd)).toNat →
      (create_synthetic_staggered_interval tone1 tone2 rd sd dm).getD
          ((pyTrunc (44100 * ((dm : ℚ) / 1000))).toNat + k) 0
        = (if (pyTrunc (44100 * ((dm : ℚ) / 1000))).toNat + k
              < (pyTrunc (44100 * rd)).toNat
            then tone1 ((pyTrunc (44100 * ((dm : ℚ) / 1000))).toNat + k) else 0)
          + tone2 k := by
  have hse := staggered_end_le_total rd sd dm hrd hsd hdm
  refine ⟨hse, ?_⟩
  intro k hk
  simp only [create_synthetic_staggered_interval]
  rw [if_pos hse]
  have hp : (pyTrunc (44100 * ((dm : ℚ) / 1000))).toNat + k
      < (pyTrunc (44100 * max rd ((dm : ℚ) / 1000 + sd))).toNat := by omega
  rw [range_map_getD _ _ _ hp]
  rw [if_pos ⟨Nat.le_add_right _ _, by omega⟩]
  rw [Nat.add_sub_cancel_left]

/-- C8: the synthetic staggered render produces a buffer of
`int(44100 * max(root_duration, delay_seconds + second_duration))` samples
in which the root note's samples occupy positions from 0, the second
note's samples start at `int(44100 * delay_seconds)` regardless of whether
the root has finished, and in the overlapping region the two tones are
summed (`+=`), not averaged. -/
theorem C8_staggered_semantics (tone1 tone2 : ℕ → ℚ) (rd sd : ℚ) (dm : ℤ)
    (hrd : 0 < rd) (hsd : 0 < sd) (hdm : 0 ≤ dm) :
    (create_synthetic_staggered_interval tone1 tone2 rd sd dm).length
        = (pyTrunc (44100 * max rd ((dm : ℚ) / 1000 + sd))).toNat ∧
    (∀ k, k < (pyTrunc (44100 * rd)).toNat →
      (create_synthetic_staggered_interval tone1 tone2 rd sd dm).getD k 0
        = tone1 k +
          (if (pyTrunc (44100 * ((dm : ℚ) / 1000))).toNat ≤ k ∧
              k < (pyTrunc (44100 * ((dm : ℚ) / 1000))).toNat
                + (pyTrunc (44100 * sd)).toNat
            then tone2 (k - (pyTrunc (44100 * ((dm : ℚ) / 1000))).toNat) else 0)) ∧
    (∀ k, (pyTrunc (44100 * ((dm : ℚ) / 1000))).toNat ≤ k →
      k < (pyTrunc (44100 * ((dm : ℚ) / 1000))).toNat + (pyTrunc (44100 * sd)).toNat →
      (create_synthetic_staggered_interval tone1 tone2 rd sd dm).getD k 0
        = (if k < (pyTrunc (44100 * rd)).toNat then tone1 k else 0)
          + tone2 (k - (pyTrunc (44100 * ((dm : ℚ) / 1000))).toNat)) := by
  have hse := staggered_end_le_total rd sd dm hrd hsd hdm
  have hrs := staggered_root_le_total rd sd dm hrd hsd hdm
  refine ⟨?_, ?_, ?_⟩
  · simp [create_synthetic_staggered_interval]
  · intro k hk
    simp only [create_synthetic_staggered_interval]
    rw [if_pos hse]
    have hp : k < (pyTrunc (44100 * max rd ((dm : ℚ) / 1000 + sd))).toNat := by omega
    rw [range_map_getD _ _ _ hp]
    by_cases hw : (pyTrunc (44100 * ((dm : ℚ) / 1000))).toNat ≤ k ∧
        k < (pyTrunc (44100 * ((dm : ℚ) / 1000))).toNat + (pyTrunc (44100 * sd)).toNat
    · rw [if_pos hw, if_pos hk, if_pos hw]
    · rw [if_neg hw, if_pos hk, if_neg hw, add_zero]
  · intro k hk1 hk2
    simp only [create_synthetic_staggered_interval]
    rw [if_pos hse]
    have hp : k < (pyTrunc (44100 * max rd ((dm : ℚ) / 1000 + sd))).toNat := by omega
    rw [range_map_getD _ _ _ hp]
    rw [if_pos ⟨hk1, hk2⟩]

section StaggeredWitnessValues

theorem stag_e_ss : (pyTrunc (44100 * (((0 : ℤ) : ℚ) / 1000))).toNat = 0 := by
  norm_num [pyTrunc]

theorem stag_e_sm : (pyTrunc (44100 * ((2 : ℚ) / 44100))).toNat = 2 := by
  norm_num [pyTrunc]
  rfl

theorem stag_e_rs : (pyTrunc (44100 * ((3 : ℚ) / 44100))).toNat = 3 := by
  norm_num [pyTrunc]
  rfl

theorem stag_e_tot :
    (pyTrunc (44100 * max ((3 : ℚ) / 44100) (((0 : ℤ) : ℚ) / 1000 + 2 / 44100))).toNat
      = 3 := by
  have hmax : max ((3 : ℚ) / 44100) (((0 : ℤ) : ℚ) / 1000 + 2 / 44100) = 3 / 44100 := by
    rw [max_eq_left]
    norm_num
  rw [hmax]
  norm_num [pyTrunc]
  rfl

end StaggeredWitnessValues

/-- C10 witness: the in-bounds write property applied to a 3-sample root
and 2-sample second note with no delay; the first sample holds the sum of
both tones -/
theorem C10_staggered_write_in_bounds_witness :
    ((0 : ℚ) < 3 / 44100) ∧ ((0 : ℚ) < 2 / 44100) ∧ ((0 : ℤ) ≤ 0) ∧
    (create_synthetic_staggered_interval (fun _ => 1) (fun _ => (10 : ℚ))
        (3 / 44100) (2 / 44100) 0).getD 0 0 = 11 := by
  refine ⟨by norm_num, by norm_num, le_refl 0, ?_⟩
  have h := (C10_staggered_write_in_bounds (fun _ => 1) (fun _ => (10 : ℚ))
    (3 / 44100) (2 / 44100) 0 (by norm_num) (by norm_num) (le_refl 0)).2
  have h0 := h 0 (by rw [stag_e_sm]; norm_num)
  rw [stag_e_ss, stag_e_rs] at h0
  exact h0.trans (by norm_num)

/-- C8 witness: the staggered-semantics theorem applied to a 3-sample root
and 2-sample second note with no delay; the buffer has
`int(44100 * max(3/44100, 0 + 2/44100)) = 3` samples and position 2 holds
only the root tone -/
theorem C8_staggered_semantics_witness :
    ((0 : ℚ) < 3 / 44100) ∧ ((0 : ℚ) < 2 / 44100) ∧ ((0 : ℤ) ≤ 0) ∧
    (create_synthetic_staggered_interval (fun _ => 1) (fun _ => (10 : ℚ))
        (3 / 44100) (2 / 44100) 0).length = 3 ∧
    (create_synthetic_staggered_interval (fun _ => 1) (fun _ => (10 : ℚ))
        (3 / 44100) (2 / 44100) 0).getD 2 0 = 1 := by
  refine ⟨by norm_num, by norm_num, le_refl 0, ?_, ?_⟩
  · have h := (C8_staggered_semantics (fun _ => 1) (fun _ => (10 : ℚ))
      (3 / 44100) (2 / 44100) 0 (by norm_num) (by norm_num) (le_refl 0)).1
    rwa [stag_e_tot] at h
  · have h := (C8_staggered_semantics (fun _ => 1) (fun _ => (10 : ℚ))
      (3 / 44100) (2 / 44100) 0 (by norm_num) (by norm_num) (le_refl 0)).2.1
    have h2 := h 2 (by rw [stag_e_rs]; norm_num)
    rw [stag_e_ss, stag_e_sm] at h2
    simpa using h2

section ChordOctaveLemmas

theorem listIndexOf_spec (x : List Char) (l : List (List Char)) (i : ℕ)
    (h : listIndexOf x l = some i) :
    i < l.length ∧ l.getD i [] = x := by
  induction l generalizing i with
  | nil => cases h
  | cons y ys ih =>
      by_cases hy : y = x
      · simp only [listIndexOf, if_pos hy] at h
        cases h
        exact ⟨Nat.succ_pos _, hy⟩
      · simp only [listIndexOf, if_neg hy] at h
        cases hi : listIndexOf x ys with
        | none => rw [hi] at h; cases h
        | some i' =>
            rw [hi] at h
            simp only [Option.map_some'] at h
            cases h
            obtain ⟨hlt, hget⟩ := ih i' hi
            exact ⟨Nat.succ_lt_succ hlt, by simpa using hget⟩

/-- a name whose sharp-normalization indexes into `note_order` has that
index as its pitch class in the synthesizer's `note_map`, and contains no
dash -/
theorem noteOrder_pc (n : List Char) (i : ℕ)
    (h : listIndexOf (flatToSharp n) note_order = some i) :
    i < 12 ∧ synthNoteLookup n = some (i : ℤ) ∧ '-' ∉ n := by
  obtain ⟨hlen, hget⟩ := listIndexOf_spec _ _ _ h
  have hi12 : i < 12 := by simpa [note_order] using hlen
  refine ⟨hi12, ?_⟩
  unfold flatToSharp at hget
  split_ifs at hget with h1 h2 h3 h4 h5
  · subst h1
    interval_cases i <;> first
      | exact ⟨by decide, by decide⟩
      | exact absurd hget (by decide)
  · subst h2
    interval_cases i <;> first
      | exact ⟨by decide, by decide⟩
      | exact absurd hget (by decide)
  · subst h3
    interval_cases i <;> first
      | exact ⟨by decide, by decide⟩
      | exact absurd hget (by decide)
  · subst h4
    interval_cases i <;> first
      | exact ⟨by decide, by decide⟩
      | exact absurd hget (by decide)
  · subst h5
    interval_cases i <;> first
      | exact ⟨by decide, by decide⟩
      | exact absurd hget (by decide)
  · rw [← hget]
    interval_cases i <;> exact ⟨by decide, by decide⟩

theorem midi_of_rendered (n : List Char) (pc : ℤ) (hlk : synthNoteLookup n = some pc)
    (hdash : '-' ∉ n) (o : ℤ) (ho : 0 ≤ o) :
    note_to_midi_number (n ++ '-' :: intToChars o) = some ((o + 1) * 12 + pc) := by
  simp only [note_to_midi_number, synthParseNote_canonical n hdash o ho, hlk,
    Option.getD_some]

theorem addOctLoop_spec (ri : ℕ) (oct : ℤ) (l : List (List Char)) (os : List ℤ)
    (h : addOctLoop ri oct l = some os) :
    os.length = l.length ∧ ∀ j, j < l.length → ∃ ni,
      listIndexOf (flatToSharp (l.getD j [])) note_order = some ni ∧
      os.getD j 0 = max 1 (min 7 (if ni < ri then oct + 1 else oct)) := by
  induction l generalizing os with
  | nil =>
      cases h
      exact ⟨rfl, fun j hj => absurd hj (by simp)⟩
  | cons n rest ih =>
      unfold addOctLoop at h
      cases hidx : listIndexOf (flatToSharp n) note_order with
      | none => rw [hidx] at h; cases h
      | some ni =>
          rw [hidx] at h
          cases hrec : addOctLoop ri oct rest with
          | none => rw [hrec] at h; cases h
          | some os' =>
              rw [hrec] at h
              cases h
              obtain ⟨hlen, hspec⟩ := ih os' hrec
              refine ⟨by simp [hlen], ?_⟩
              intro j hj
              cases j with
              | zero => exact ⟨ni, by simpa using hidx, rfl⟩
              | succ j' =>
                  obtain ⟨ni', hni', hval⟩ := hspec j' (by simpa using hj)
                  exact ⟨ni', by simpa using hni', by simpa using hval⟩

end ChordOctaveLemmas

/-- the octave-assignment invariant of `_add_octaves_to_chord_notes` for
base octaves in [1, 6] (where the [1, 7] clamp is inactive): every
produced tone's MIDI number is at least the root's -/
theorem add_octaves_invariant (names : List (List Char)) (octave : ℤ)
    (h1 : 1 ≤ octave) (h6 : octave ≤ 6) (out : List (List Char))
    (hout : add_octaves_to_chord_notes names octave = some out) :
    out ≠ [] ∧ ∀ s ∈ out, ∃ ms mr : ℤ,
      note_to_midi_number s = some ms ∧
      note_to_midi_number (out.getD 0 []) = some mr ∧ mr ≤ ms := by
  cases names with
  | nil => cases hout
  | cons root rest =>
      cases hri : listIndexOf (flatToSharp root) note_order with
      | none => simp [add_octaves_to_chord_notes, hri] at hout
      | some ri =>
          simp only [add_octaves_to_chord_notes, hri] at hout
          cases hoc : addOctLoop ri octave rest with
          | none => simp [hoc] at hout
          | some octs =>
              simp only [hoc, Option.some.injEq] at hout
              subst hout
              obtain ⟨hri12, hrootlk, hrootdash⟩ := noteOrder_pc root ri hri
              obtain ⟨hoclen, hocspec⟩ := addOctLoop_spec ri octave rest octs hoc
              have hhead : (List.zipWith (fun n o => n ++ '-' :: intToChars o)
                  (root :: rest) (octave :: octs)).getD 0 []
                    = root ++ '-' :: intToChars octave := rfl
              have hmr : note_to_midi_number ((List.zipWith
                  (fun n o => n ++ '-' :: intToChars o)
                  (root :: rest) (octave :: octs)).getD 0 [])
                    = some ((octave + 1) * 12 + ri) := by
                rw [hhead]
                exact midi_of_rendered root ri hrootlk hrootdash octave (by omega)
              refine ⟨by simp, ?_⟩
              intro s hs
              rw [List.mem_iff_getElem] at hs
              obtain ⟨j, hjl, hjs⟩ := hs
              have hjlen : j < 1 + rest.length := by
                have := hjl
                simp only [List.length_zipWith, List.length_cons, hoclen] at this
                omega
              cases j with
              | zero =>
                  have hs0 : s = root ++ '-' :: intToChars octave := by
                    rw [← hjs]
                    rfl
                  subst hs0
                  exact ⟨(octave + 1) * 12 + ri, (octave + 1) * 12 + ri,
                    midi_of_rendered root ri hrootlk hrootdash octave (by omega),
                    hmr, le_refl _⟩
              | succ j' =>
                  have hj' : j' < rest.length := by omega
                  have hjz : j' < octs.length := by omega
                  have hsj : s = rest[j'] ++ '-' :: intToChars octs[j'] := by
                    rw [← hjs]
                    simp [List.getElem_zipWith]
                  obtain ⟨ni, hni, hval⟩ := hocspec j' hj'
                  rw [List.getD_eq_getElem rest [] hj'] at hni
                  rw [List.getD_eq_getElem octs 0 hjz] at hval
                  obtain ⟨hni12, hnlk, hndash⟩ := noteOrder_pc _ ni hni
                  by_cases hlt : ni < ri
                  · have hoj : octs[j'] = octave + 1 := by
                      rw [hval, if_pos hlt]
                      omega
                    refine ⟨(octave + 1 + 1) * 12 + ni, (octave + 1) * 12 + ri, ?_, hmr, ?_⟩
                    · rw [hsj, hoj]
                      exact midi_of_rendered _ ni hnlk hndash (octave + 1) (by omega)
                    · omega
                  · have hoj : octs[j'] = octave := by
                      rw [hval, if_neg hlt]
                      omega
                    refine ⟨(octave + 1) * 12 + ni, (octave + 1) * 12 + ri, ?_, hmr, ?_⟩
                    · rw [hsj, hoj]
                      exact midi_of_rendered _ ni hnlk hndash octave (by omega)
                    · omega

/-- C3 counterexample.  The octave clamp `max(1, min(7, octave))` is
applied to every non-root tone but never to the root, so at base octave 7
(within the documented octave range [1, 8]) the bumped tones are clamped
back below the root: the B major triad at octave 7 renders as
`B-7, D#-7, F#-7`, and `D#-7` (MIDI 99) sounds below the root `B-7`
(MIDI 107). -/
theorem C3_chord_octave_counterexample :
    get_chord_notes_with_octaves (chars "B") (chars "major") 7
        = some [chars "B-7", chars "D#-7", chars "F#-7"] ∧
      note_to_midi_number (chars "D#-7") = some 99 ∧
      note_to_midi_number (chars "B-7") = some 107 ∧ (99 : ℤ) < 107 := by
  decide

/-- C3 (amended): for every root and chord-quality tag and every base
octave in [1, 6] (where the non-root [1, 7] octave clamp cannot undercut
the root), whenever the chord construction succeeds, every tone of the
produced chord has a MIDI number at least the root tone's MIDI number. -/
theorem C3_chord_octave_amended (root chord_type : List Char) (octave : ℤ)
    (h1 : 1 ≤ octave) (h6 : octave ≤ 6) (out : List (List Char))
    (hout : get_chord_notes_with_octaves root chord_type octave = some out) :
    out ≠ [] ∧ ∀ s ∈ out, ∃ ms mr : ℤ,
      note_to_midi_number s = some ms ∧
      note_to_midi_number (out.getD 0 []) = some mr ∧ mr ≤ ms := by
  cases htr : select_triad root chord_type with
  | none => simp [get_chord_notes_with_octaves, htr] at hout
  | some chord_notes =>
      simp only [get_chord_notes_with_octaves, htr] at hout
      exact add_octaves_invariant chord_notes octave h1 h6 out hout

/-- C3 witness: the amended invariant applied to the C minor triad at
octave 4, which renders as `C-4, Eb-4, G-4` -/
theorem C3_chord_octave_amended_witness :
    ((1 : ℤ) ≤ 4) ∧ ((4 : ℤ) ≤ 6) ∧
    get_chord_notes_with_octaves (chars "C") (chars "minor") 4
      = some [chars "C-4", chars "Eb-4", chars "G-4"] ∧
    (∀ s ∈ [chars "C-4", chars "Eb-4", chars "G-4"], ∃ ms mr : ℤ,
      note_to_midi_number s = some ms ∧
      note_to_midi_number ([chars "C-4", chars "Eb-4", chars "G-4"].getD 0 [])
        = some mr ∧ mr ≤ ms) := by
  refine ⟨by norm_num, by norm_num, by decide, ?_⟩
  exact (C3_chord_octave_amended (chars "C") (chars "minor") 4 (by norm_num)
    (by norm_num) [chars "C-4", chars "Eb-4", chars "G-4"] (by decide)).2

section GenerateCheck

/-- the constructor arguments of `CombinedIntervalsMelodicExercise`
(`exercises/level1/combined_intervals_melodic.py`), a concrete
interval-recognition exercise whose interval set contains `major_third` -/
def combined_intervals_melodic : IntervalExercise :=
  { intervals := [chars "minor_third", chars "major_third", chars "perfect_fourth",
      chars "perfect_fifth", chars "octave"]
    exercise_type := chars "combined_intervals"
    timing := chars "melodic" }

/-- the override map of the C1 scenario:
`generate(interval="major_third", reference_note="C")` -/
def c1_config : PyDict :=
  [(chars "interval", PyVal.pstr (chars "major_third")),
   (chars "reference_note", PyVal.pstr (chars "C"))]

/-- the `ExerciseData` that `generate` produces in the C1 scenario -/
def c1_expected_data : ExerciseData :=
  { key := chars "Question 1/20"
    scale := []
    progression_audio := none
    target_audio := some (cache_content_staggered (chars "C-4") (chars "E-4")
      (chars "1.5") (chars "1.5") 400)
    options := [chars "3m", chars "3M", chars "4J", chars "5J", chars "8J"]
    correct_answer := chars "3M"
    context :=
      [(chars "reference_note", PyVal.pstr (chars "C-4")),
       (chars "second_note", PyVal.pstr (chars "E-4")),
       (chars "interval", PyVal.pstr (chars "major_third")),
       (chars "interval_semitones", PyVal.pint 4),
       (chars "question_number", PyVal.pint 1),
       (chars "total_questions", PyVal.pint 20),
       (chars "timing", PyVal.pstr (chars "melodic")),
       (chars "octave", PyVal.pint 4)] }

theorem c1_validate :
    interval_validate_config combined_intervals_melodic c1_config
      = [(chars "interval", PyVal.pstr (chars "major_third")),
         (chars "reference_note", PyVal.pstr (chars "C")),
         (chars "question_number", PyVal.pint 1),
         (chars "octave", PyVal.pint 4)] := by
  decide

theorem c1_wc_some (r : ℚ) (idx : ℕ) :
    ∃ c, weighted_choice (combined_intervals_melodic.intervals.map
      (fun i => (i, 1 / (combined_intervals_melodic.intervals.length : ℚ)))) r idx
        = some c := by
  simp only [weighted_choice]
  rw [if_neg (by
    simp only [combined_intervals_melodic, List.map_cons, List.map_nil,
      List.length_cons, List.length_nil, List.sum_cons, List.sum_nil]
    norm_num)]
  cases h : wc_loop r 0 ((combined_intervals_melodic.intervals.map
      (fun i => (i, 1 / (combined_intervals_melodic.intervals.length : ℚ)))).map
      (fun kv => (kv.1, kv.2 / ((combined_intervals_melodic.intervals.map
        (fun i => (i, 1 / (combined_intervals_melodic.intervals.length : ℚ)))).map
          Prod.snd).sum))) with
  | some c => exact ⟨c, rfl⟩
  | none => exact ⟨chars "minor_third", rfl⟩

theorem c1_generate_eq (r1 : ℕ) (r2 : ℚ) (r3 : ℕ) :
    interval_generate combined_intervals_melodic c1_config r1 r2 r3
      = some c1_expected_data := by
  obtain ⟨c, hc⟩ := c1_wc_some r2 r3
  simp only [interval_generate, c1_validate]
  rw [show dictGet [(chars "interval", PyVal.pstr (chars "major_third")),
      (chars "reference_note", PyVal.pstr (chars "C")),
      (chars "question_number", PyVal.pint 1),
      (chars "octave", PyVal.pint 4)] (chars "interval_probabilities")
        = none from by decide]
  rw [show (dictGet [(chars "interval", PyVal.pstr (chars "major_third")),
      (chars "reference_note", PyVal.pstr (chars "C")),
      (chars "question_number", PyVal.pint 1),
      (chars "octave", PyVal.pint 4)] (chars "reference_note"))
        = some (PyVal.pstr (chars "C")) from by decide]
  rw [show (dictGet [(chars "interval", PyVal.pstr (chars "major_third")),
      (chars "reference_note", PyVal.pstr (chars "C")),
      (chars "question_number", PyVal.pint 1),
      (chars "octave", PyVal.pint 4)] (chars "octave"))
        = some (PyVal.pint 4) from by decide]
  rw [show (dictGet [(chars "interval", PyVal.pstr (chars "major_third")),
      (chars "reference_note", PyVal.pstr (chars "C")),
      (chars "question_number", PyVal.pint 1),
      (chars "octave", PyVal.pint 4)] (chars "interval"))
        = some (PyVal.pstr (chars "major_third")) from by decide]
  rw [show (dictGet [(chars "interval", PyVal.pstr (chars "major_third")),
      (chars "reference_note", PyVal.pstr (chars "C")),
      (chars "question_number", PyVal.pint 1),
      (chars "octave", PyVal.pint 4)] (chars "question_number"))
        = some (PyVal.pint 1) from by decide]
  simp only [Option.getD_some]
  rw [hc]
  rfl

end GenerateCheck

/-- C1.  `generate(interval="major_third", reference_note="C")` on the
base interval exercise returns `correct_answer = "3M"` with `"3M"` among
the options (regardless of the three random draws, whose results the call
discards), but the context it returns is NOT self-sufficient:
`generate` never stores a `"correct_answer"` key in the context, while
`check_answer` reads `context.get("correct_answer")` (which yields `None`)
and compares the submission against it, so `check_answer("3M", context)`
returns `is_correct = False` — not `True` as the claim requires.  (The
repository's own tests inject `context["correct_answer"]` by hand, and the
API layer re-derives it by calling `generate` again — the very
re-derivation §9 of the spec calls a bug.) -/
theorem C1_generate_check_context (r1 : ℕ) (r2 : ℚ) (r3 : ℕ) :
    ∃ d, interval_generate combined_intervals_melodic c1_config r1 r2 r3 = some d ∧
      d.correct_answer = chars "3M" ∧
      chars "3M" ∈ d.options ∧
      dictGet d.context (chars "correct_answer") = none ∧
      (interval_check_answer (PyVal.pstr (chars "3M")) d.context).is_correct = false ∧
      (interval_check_answer (PyVal.pstr (chars "3m")) d.context).is_correct = false := by
  exact ⟨c1_expected_data, c1_generate_eq r1 r2 r3, by decide, by decide, by decide,
    by decide, by decide⟩
